/-
Verification of the perke keyphrase-extraction library against its
natural-language specification.

The Python sources are shallowly embedded: pure data (Sentence, Candidate)
become structures, the candidate dictionary becomes an insertion-ordered
association list with defaultdict semantics, floating point weights are
modelled as rationals, and the networkx graphs are modelled as total
adjacency/weight functions over node names (weight 0 / adjacency false
standing for an absent edge).
-/
import Mathlib

open scoped List

namespace Perke

/-! ### Data model (`perke/base/data_structures.py`) -/

/-- The sentence data structure: parallel lists of words, part-of-speech
tags and normalized words. -/
structure Sentence where
  words : List String
  pos_tags : List String
  normalized_words : List String
deriving DecidableEq

/-- `Sentence.length` returns `len(self.words)`. -/
def Sentence.length (s : Sentence) : Nat := s.words.length

/-- The keyphrase candidate data structure.  `offsets` are document-wide
token offsets of the occurrences; `weight` is a float in the source,
modelled as a rational. -/
structure Candidate where
  all_words : List (List String)
  offsets : List Nat
  all_pos_tags : List (List String)
  normalized_words : List String
  weight : ℚ
deriving DecidableEq

/-- The dataclass default: all lists empty, weight 0. -/
def Candidate.init : Candidate := ⟨[], [], [], [], 0⟩

/-- `Candidate.length` returns `len(self.normalized_words)`. -/
def Candidate.length (c : Candidate) : Nat := c.normalized_words.length

/-- `Candidate.add_occurrence`: appends to the three occurrence lists and
(re)assigns the shared normalized words. -/
def Candidate.add_occurrence (c : Candidate) (words : List String) (offset : Nat)
    (pos_tags : List String) (normalized_words : List String) : Candidate :=
  { c with
    all_words := c.all_words ++ [words]
    offsets := c.offsets ++ [offset]
    all_pos_tags := c.all_pos_tags ++ [pos_tags]
    normalized_words := normalized_words }

/-- The candidate container `defaultdict[str, Candidate]`, modelled as an
insertion-ordered association list from canonical forms to candidates. -/
abbrev Candidates := List (String × Candidate)

/-- `self.candidates[k]` lookup with `defaultdict` semantics: a missing key
yields a fresh default `Candidate`. -/
def lookupC (cs : Candidates) (k : String) : Candidate :=
  match cs.find? (fun p => p.1 = k) with
  | some p => p.2
  | none => Candidate.init

/-! ### Claim C9: candidate occurrence-list invariant

The only public extractor operations that mutate an existing candidate are
`Extractor.add_candidate_occurrence` (which calls
`Candidate.add_occurrence`) and the weighting phase (which assigns
`candidate.weight`); filtering deletes whole candidates from the map and
never edits one.  A candidate is created by `defaultdict` access and
immediately receives its first occurrence (`extractor.py`, line 227). -/

/-- A mutation applied to one candidate by the public extractor
operations: an occurrence addition, or a weight assignment. -/
inductive CandOp
  | add (words : List String) (offset : Nat) (pos_tags : List String)
      (normalized_words : List String)
  | setWeight (w : ℚ)

/-- Applies one mutation to a candidate. -/
def CandOp.apply (c : Candidate) : CandOp → Candidate
  | .add w o p nw => c.add_occurrence w o p nw
  | .setWeight q => { c with weight := q }

/-- Whether the operation is an occurrence addition. -/
def CandOp.isAdd : CandOp → Bool
  | .add _ _ _ _ => true
  | .setWeight _ => false

lemma candOp_lengths (c : Candidate) (op : CandOp) :
    ((op.apply c).all_words.length = c.all_words.length + (if op.isAdd then 1 else 0)) ∧
    ((op.apply c).offsets.length = c.offsets.length + (if op.isAdd then 1 else 0)) ∧
    ((op.apply c).all_pos_tags.length = c.all_pos_tags.length + (if op.isAdd then 1 else 0)) := by
  cases op <;>
    simp [CandOp.apply, CandOp.isAdd, Candidate.add_occurrence]

lemma foldl_candOp_lengths (ops : List CandOp) (c : Candidate) :
    ((ops.foldl CandOp.apply c).all_words.length
        = c.all_words.length + (ops.filter CandOp.isAdd).length) ∧
    ((ops.foldl CandOp.apply c).offsets.length
        = c.offsets.length + (ops.filter CandOp.isAdd).length) ∧
    ((ops.foldl CandOp.apply c).all_pos_tags.length
        = c.all_pos_tags.length + (ops.filter CandOp.isAdd).length) := by
  induction ops generalizing c with
  | nil => simp
  | cons op rest ih =>
    obtain ⟨h1, h2, h3⟩ := candOp_lengths c op
    obtain ⟨g1, g2, g3⟩ := ih (op.apply c)
    refine ⟨?_, ?_, ?_⟩ <;>
      · simp only [List.foldl_cons, List.filter_cons]
        cases hop : op.isAdd <;>
          simp_all +arith [hop]

/-- C9: For every candidate reachable through any sequence of public
extractor operations (occurrence additions and weight assignments) that
contains at least one occurrence addition, the three occurrence lists
`all_words`, `offsets` and `all_pos_tags` have equal length, this length
is at least 1, and the candidate's `length` property equals
`len(normalized_words)`. -/
theorem candidate_invariant (ops : List CandOp)
    (h : ∃ op ∈ ops, op.isAdd = true) :
    let c := ops.foldl CandOp.apply Candidate.init
    c.all_words.length = c.offsets.length ∧
    c.offsets.length = c.all_pos_tags.length ∧
    1 ≤ c.offsets.length ∧
    c.length = c.normalized_words.length := by
  intro c
  obtain ⟨h1, h2, h3⟩ := foldl_candOp_lengths ops Candidate.init
  have hpos : 0 < (ops.filter CandOp.isAdd).length := by
    obtain ⟨op, hop, hadd⟩ := h
    exact List.length_pos.mpr (fun hnil => by
      have : op ∈ ops.filter CandOp.isAdd := List.mem_filter.mpr ⟨hop, hadd⟩
      simp [hnil] at this)
  refine ⟨?_, ?_, ?_, rfl⟩ <;>
    simp_all [Candidate.init, c] <;> omega

theorem candidate_invariant_witness :
    (∃ op ∈ [CandOp.add ["w"] 0 ["N"] ["w"]], op.isAdd = true) ∧
    (let c := [CandOp.add ["w"] 0 ["N"] ["w"]].foldl CandOp.apply Candidate.init
     c.all_words.length = c.offsets.length ∧
     c.offsets.length = c.all_pos_tags.length ∧
     1 ≤ c.offsets.length ∧
     c.length = c.normalized_words.length) :=
  ⟨⟨CandOp.add ["w"] 0 ["N"] ["w"], by simp, rfl⟩,
   candidate_invariant _ ⟨CandOp.add ["w"] 0 ["N"] ["w"], by simp, rfl⟩⟩

/-! ### Claim C6: the clustering metric requested from `weight_candidates`

`MultipartiteRank.weight_candidates` accepts a `metric` parameter and its
docstring documents it as "The hierarchical clustering metric", but the
call on line 232 of `multipartite_rank.py` reads
`self.cluster_topics(threshold=threshold, linkage_method=linkage_method)`:
the metric is not forwarded, so `cluster_topics` always runs with its
default metric. -/

/-- The hierarchical clustering metrics (`perke/base/types.py`,
`HierarchicalClusteringMetric`). -/
inductive Metric
  | euclidean
  | seuclidean
  | jaccard
deriving DecidableEq

/-- The hierarchical clustering linkage methods (`perke/base/types.py`,
`HierarchicalClusteringLinkageMethod`). -/
inductive Linkage
  | single
  | complete
  | average
deriving DecidableEq

/-- The parameters with which the clustering computation is actually
performed (the arguments reaching `pdist` and `linkage`). -/
structure ClusteringCall where
  threshold : ℚ
  metric : Metric
  linkage_method : Linkage
deriving DecidableEq

/-- Modelled from the spec: `TopicRank.cluster_topics` (the file
`perke/unsupervised/graph_based/topic_rank.py` is not among the sources;
only its callers are).  Per the spec it computes the pairwise
dissimilarity with the selectable metric it receives and clusters with the
selectable linkage method; we record the parameters it uses. -/
def TopicRank.cluster_topics (threshold : ℚ) (metric : Metric)
    (linkage_method : Linkage) : ClusteringCall :=
  ⟨threshold, metric, linkage_method⟩

/-- `MultipartiteRank.cluster_topics` forwards all three parameters to
`super().cluster_topics(threshold, metric, linkage_method)`
(`multipartite_rank.py`, line 108). -/
def MultipartiteRank.cluster_topics (threshold : ℚ) (metric : Metric)
    (linkage_method : Linkage) : ClusteringCall :=
  TopicRank.cluster_topics threshold metric linkage_method

/-- The clustering call performed by `MultipartiteRank.weight_candidates`:
line 232 passes only `threshold` and `linkage_method`, so `metric` falls
back to the `cluster_topics` default `HierarchicalClusteringMetric.jaccard`
whatever metric the caller passed to `weight_candidates`. -/
def MultipartiteRank.weight_candidates_clustering (threshold : ℚ)
    (metric : Metric) (linkage_method : Linkage) (alpha : ℚ) : ClusteringCall :=
  MultipartiteRank.cluster_topics threshold Metric.jaccard linkage_method

/-- C6: evaluation of the code at the failing input.  When the caller
passes `metric = euclidean` (or any metric) to
`MultipartiteRank.weight_candidates`, the clustering is performed with the
default `jaccard` metric, not the requested one: the metric argument is
dropped on line 232 of `multipartite_rank.py`. -/
theorem weight_candidates_ignores_metric :
    ∀ threshold linkage_method alpha,
      (MultipartiteRank.weight_candidates_clustering threshold
          Metric.euclidean linkage_method alpha).metric = Metric.jaccard ∧
      (MultipartiteRank.weight_candidates_clustering threshold
          Metric.euclidean linkage_method alpha).metric ≠ Metric.euclidean := by
  intro threshold linkage_method alpha
  exact ⟨rfl, fun h => Metric.noConfusion h⟩

/-! ### Claim C10: topic-graph gap safety

`MultipartiteRank.build_topic_graph` (`multipartite_rank.py`, lines
138-150) computes, for every pair of occurrences of two candidates, a gap
`abs(p_i - p_j)` reduced by `len(candidate) - 1` for the earlier
candidate, and divides `1.0 / gap` with no zero guard. -/

/-- The gap computation: `gap = abs(p_i - p_j)`, then
`gap -= len_i - 1` when `p_i < p_j`, then `gap -= len_j - 1` when
`p_j < p_i` (the two conditions are mutually exclusive). -/
def gap (p_i p_j len_i len_j : Nat) : Int :=
  |(p_i : Int) - (p_j : Int)|
    - (if p_i < p_j then (len_i : Int) - 1 else 0)
    - (if p_j < p_i then (len_j : Int) - 1 else 0)

/-- The `weights` list built for one candidate pair: one entry `1.0 / gap`
per pair of occurrences (nested loops over `candidate_i.offsets` and
`candidate_j.offsets`).  The candidate lengths are
`len(candidate.normalized_words)`. -/
def pairWeights (ci cj : Candidate) : List ℚ :=
  ci.offsets.flatMap (fun a =>
    cj.offsets.map (fun b => 1 / ((gap a b ci.length cj.length : Int) : ℚ)))

lemma gap_ge_one {p_i p_j len_i len_j : Nat} (hi : 1 ≤ len_i) (hj : 1 ≤ len_j)
    (h : p_i + len_i ≤ p_j ∨ p_j + len_j ≤ p_i) :
    1 ≤ gap p_i p_j len_i len_j := by
  rcases h with h | h
  · have habs : |(p_i : Int) - (p_j : Int)| = (p_j : Int) - (p_i : Int) := by
      rw [abs_sub_comm]
      exact abs_of_nonneg (by omega)
    simp only [gap, habs]
    split_ifs <;> omega
  · have habs : |(p_i : Int) - (p_j : Int)| = (p_i : Int) - (p_j : Int) :=
      abs_of_nonneg (by omega)
    simp only [gap, habs]
    split_ifs <;> omega

/-- C10: when every pair of occurrences of two candidates are
non-overlapping token spans (the earlier span of length `len` starting at
`p` ends before position `p + len`) and both candidates have at least one
word, every adjusted gap computed by `build_topic_graph` is at least 1 —
so the unguarded division `1.0 / gap` never divides by zero — every
entry of the `weights` list is positive, and the resulting edge weight
(the sum of a nonempty `weights` list) is positive. -/
theorem build_topic_graph_gap_safe (ci cj : Candidate)
    (hi : 1 ≤ ci.length) (hj : 1 ≤ cj.length)
    (hno : ∀ a ∈ ci.offsets, ∀ b ∈ cj.offsets,
        a + ci.length ≤ b ∨ b + cj.length ≤ a) :
    (∀ a ∈ ci.offsets, ∀ b ∈ cj.offsets, 1 ≤ gap a b ci.length cj.length) ∧
    (∀ x ∈ pairWeights ci cj, 0 < x) ∧
    (pairWeights ci cj ≠ [] → 0 < (pairWeights ci cj).sum) := by
  have hgap : ∀ a ∈ ci.offsets, ∀ b ∈ cj.offsets,
      1 ≤ gap a b ci.length cj.length :=
    fun a ha b hb => gap_ge_one hi hj (hno a ha b hb)
  have hpos : ∀ x ∈ pairWeights ci cj, 0 < x := by
    intro x hx
    simp only [pairWeights, List.mem_flatMap, List.mem_map] at hx
    obtain ⟨a, ha, b, hb, rfl⟩ := hx
    have h1 : (0 : ℚ) < ((gap a b ci.length cj.length : Int) : ℚ) := by
      exact_mod_cast lt_of_lt_of_le Int.zero_lt_one (hgap a ha b hb)
    exact one_div_pos.mpr h1
  exact ⟨hgap, hpos, fun hne => List.sum_pos _ hpos hne⟩

theorem build_topic_graph_gap_safe_witness :
    let ci : Candidate := ⟨[["a"]], [0], [["N"]], ["a"], 0⟩
    let cj : Candidate := ⟨[["b"]], [1], [["N"]], ["b"], 0⟩
    (∀ a ∈ ci.offsets, ∀ b ∈ cj.offsets, 1 ≤ gap a b ci.length cj.length) ∧
    (∀ x ∈ pairWeights ci cj, 0 < x) ∧
    (pairWeights ci cj ≠ [] → 0 < (pairWeights ci cj).sum) :=
  build_topic_graph_gap_safe _ _ (by decide) (by decide)
    (by intro a ha b hb; simp at ha hb; subst ha; subst hb; left; decide)

/-! ### Claim C7: top-T-percent keyword count (`text_rank.py`, 172-184)

`TextRank.weight_candidates` with `top_t_percent` computes
`to_keep = int(number_of_nodes * top_t_percent)` and keeps
`sorted_weights[:int(to_keep)]`, the `to_keep` highest-weighted nodes.
Weights are modelled as rationals; `int()` truncates toward zero, which on
the nonnegative product equals the floor. -/

/-- Stable descending sort by weight, the model of Python's
`sorted(xs, key=weights.get, reverse=True)` (Timsort is stable; a stable
descending sort is unique, and `List.insertionSort` with this relation is
one: an element is inserted before the first already-sorted element whose
weight is not larger, hence after every earlier-listed element of equal
weight). -/
def sortByWeightDesc (w : String → ℚ) (nodes : List String) : List String :=
  List.insertionSort (fun a b => w b ≤ w a) nodes

/-- `to_keep = int(number_of_nodes * top_t_percent)`. -/
def to_keep (number_of_nodes : Nat) (top_t_percent : ℚ) : Int :=
  ⌊(number_of_nodes : ℚ) * top_t_percent⌋

/-- `sorted_weights[:int(to_keep)]`: the kept keyword list. -/
def keywords_kept (w : String → ℚ) (nodes : List String)
    (top_t_percent : ℚ) : List String :=
  (sortByWeightDesc w nodes).take (to_keep nodes.length top_t_percent).toNat

/-- C7: for every node list (distinct graph nodes) and every
`top_t_percent` in `(0, 1]`, the number of highest-weighted nodes kept as
the keyword set is exactly `floor(node_count * top_t_percent)` (floor,
not round), and the kept nodes are distinct. -/
theorem top_t_percent_keeps_floor (w : String → ℚ) (nodes : List String)
    (t : ℚ) (hnd : nodes.Nodup) (h0 : 0 < t) (h1 : t ≤ 1) :
    ((keywords_kept w nodes t).length : Int) = ⌊(nodes.length : ℚ) * t⌋ ∧
    (keywords_kept w nodes t).Nodup := by
  have hperm := List.perm_insertionSort (fun a b => w b ≤ w a) nodes
  have hlen : (sortByWeightDesc w nodes).length = nodes.length :=
    hperm.length_eq
  have hfl0 : 0 ≤ ⌊(nodes.length : ℚ) * t⌋ :=
    Int.floor_nonneg.mpr (mul_nonneg (Nat.cast_nonneg _) h0.le)
  have hfln : ⌊(nodes.length : ℚ) * t⌋ ≤ (nodes.length : Int) := by
    calc ⌊(nodes.length : ℚ) * t⌋ ≤ ⌊((nodes.length : Int) : ℚ)⌋ := by
          apply Int.floor_le_floor
          push_cast
          exact mul_le_of_le_one_right (Nat.cast_nonneg _) h1
      _ = (nodes.length : Int) := Int.floor_intCast _
  constructor
  · rw [keywords_kept, List.length_take, hlen, to_keep]
    omega
  · exact ((List.take_sublist _ _).nodup (hperm.nodup_iff.mpr hnd))

theorem top_t_percent_keeps_floor_witness :
    ["a", "b", "c"].Nodup ∧ (0 : ℚ) < 1/2 ∧ (1/2 : ℚ) ≤ 1 ∧
    ((keywords_kept (fun _ => 0) ["a", "b", "c"] (1/2)).length : Int)
      = ⌊((["a", "b", "c"].length : Nat) : ℚ) * (1/2)⌋ ∧
    (keywords_kept (fun _ => 0) ["a", "b", "c"] (1/2)).Nodup := by
  refine ⟨by decide, by norm_num, by norm_num, ?_⟩
  exact top_t_percent_keeps_floor (fun _ => 0) ["a", "b", "c"] (1/2)
    (by decide) (by norm_num) (by norm_num)

/-! ### Claims C1 and C8: the word co-occurrence graph
(`TextRank.build_word_graph`, `text_rank.py` lines 79-136)

The `nx.Graph` is modelled as a symmetric adjacency function plus a
symmetric weight function; an absent edge has adjacency `false`, and its
weight entry is 0.  Node insertion (lines 109-111) does not affect edges
and is not modelled. -/

/-- The undirected word graph. -/
structure WordGraph where
  hasEdge : String → String → Bool
  weight : String → String → ℚ

/-- A fresh `nx.Graph()`. -/
def WordGraph.empty : WordGraph := ⟨fun _ _ => false, fun _ _ => 0⟩

/-- `graph.add_edge(a, b)` (unweighted TextRank branch, line 136). -/
def WordGraph.addEdge (g : WordGraph) (a b : String) : WordGraph :=
  { g with hasEdge := fun x y =>
      if (x = a ∧ y = b) ∨ (x = b ∧ y = a) then true else g.hasEdge x y }

/-- `graph.add_edge(a, b, weight=0.0)` (SingleRank branch, lines 128-130). -/
def WordGraph.addEdgeW0 (g : WordGraph) (a b : String) : WordGraph :=
  { hasEdge := fun x y =>
      if (x = a ∧ y = b) ∨ (x = b ∧ y = a) then true else g.hasEdge x y
    weight := fun x y =>
      if (x = a ∧ y = b) ∨ (x = b ∧ y = a) then 0 else g.weight x y }

/-- `graph[a][b]['weight'] += 1.0` (line 132). -/
def WordGraph.incWeight (g : WordGraph) (a b : String) : WordGraph :=
  { g with weight := fun x y =>
      if (x = a ∧ y = b) ∨ (x = b ∧ y = a) then g.weight x y + 1 else g.weight x y }

/-- The flattened text (lines 102-107): one `(normalized_word, is_valid)`
pair per token of every sentence, sentence boundaries ignored; a token is
valid when its aligned part-of-speech tag is in the valid set. -/
def flattenText (sentences : List Sentence) (valid_pos : List String) :
    List (String × Bool) :=
  sentences.flatMap (fun s =>
    (s.normalized_words.zip s.pos_tags).map
      (fun wp => (wp.1, decide (wp.2 ∈ valid_pos))))

/-- The index pairs visited by the edge loops: `i` over
`range(len(flatten_text))` and `j` over `range(i+1, min(i+window_size,
len(flatten_text)))`. -/
def windowPairs (n window_size : Nat) : List (Nat × Nat) :=
  (List.range n).flatMap (fun i =>
    (List.range' (i+1) (min (i + window_size) n - (i+1))).map (fun j => (i, j)))

/-- The loop body applied to the two `(word, is_valid)` tokens of one
index pair (lines 114-136); the outer-loop `continue` for an invalid
first node is folded into the conjunction.  `weighted` is
`self.graph_edges_are_weighted`. -/
def wordGraphCore (fi fj : String × Bool) (weighted : Bool)
    (g : WordGraph) : WordGraph :=
  if fi.2 = true ∧ fj.2 = true ∧ fi.1 ≠ fj.1 then
    if weighted then
      (if g.hasEdge fi.1 fj.1 then g else g.addEdgeW0 fi.1 fj.1).incWeight fi.1 fj.1
    else
      g.addEdge fi.1 fj.1
  else g

/-- The loop body for one index pair of the flattened text. -/
def wordGraphStep (ft : List (String × Bool)) (weighted : Bool)
    (g : WordGraph) (p : Nat × Nat) : WordGraph :=
  wordGraphCore (ft.getD p.1 ("", false)) (ft.getD p.2 ("", false)) weighted g

/-- The edge-construction part of `build_word_graph`: the loop body
folded over all window index pairs, starting from the current graph. -/
def build_word_graph (ft : List (String × Bool)) (window_size : Nat)
    (weighted : Bool) (g0 : WordGraph) : WordGraph :=
  (windowPairs ft.length window_size).foldl (wordGraphStep ft weighted) g0

/-- Two tokens form a co-occurrence instance contributing the unordered
edge `{u, v}`: both valid-pos, distinct words, endpoint words `{u, v}`. -/
def InstCond (fi fj : String × Bool) (u v : String) : Prop :=
  fi.2 = true ∧ fj.2 = true ∧ fi.1 ≠ fj.1 ∧
    ((u = fi.1 ∧ v = fj.1) ∨ (u = fj.1 ∧ v = fi.1))

instance (fi fj : String × Bool) (u v : String) :
    Decidable (InstCond fi fj u v) := by
  unfold InstCond; infer_instance

/-- Index pair `p` is a co-occurrence instance contributing the unordered
edge `{u, v}`. -/
def IsInstance (ft : List (String × Bool)) (u v : String) (p : Nat × Nat) : Prop :=
  InstCond (ft.getD p.1 ("", false)) (ft.getD p.2 ("", false)) u v

instance (ft : List (String × Bool)) (u v : String) :
    DecidablePred (IsInstance ft u v) := fun p => by
  unfold IsInstance; infer_instance

/-- Number of co-occurrence instances of the unordered pair `{u, v}`
within the window. -/
def cooccurrences (ft : List (String × Bool)) (window_size : Nat)
    (u v : String) : Nat :=
  ((windowPairs ft.length window_size).filter
    (fun p => decide (IsInstance ft u v p))).length

/-- Well-formedness of the modelled `nx.Graph`: adjacency and weights are
symmetric, and absent edges carry weight 0.  It holds for the empty graph
and is preserved by the loop body. -/
def WordGraph.Good (g : WordGraph) : Prop :=
  (∀ u v, g.hasEdge u v = g.hasEdge v u) ∧
  (∀ u v, g.weight u v = g.weight v u) ∧
  (∀ u v, g.hasEdge u v = false → g.weight u v = 0)

lemma empty_good : WordGraph.Good WordGraph.empty :=
  ⟨fun _ _ => rfl, fun _ _ => rfl, fun _ _ _ => rfl⟩

lemma core_hasEdge (fi fj : String × Bool) (weighted : Bool)
    (g : WordGraph) (hg : g.Good) (u v : String) :
    (wordGraphCore fi fj weighted g).hasEdge u v
      = (g.hasEdge u v || decide (InstCond fi fj u v)) := by
  obtain ⟨a, va⟩ := fi
  obtain ⟨b, vb⟩ := fj
  obtain ⟨hsym, -, -⟩ := hg
  unfold wordGraphCore InstCond
  by_cases hc : va = true ∧ vb = true ∧ a ≠ b
  · rw [if_pos hc]
    obtain ⟨h1, h2, h3⟩ := hc
    by_cases hhit : (u = a ∧ v = b) ∨ (u = b ∧ v = a)
    · have hinst : decide (va = true ∧ vb = true ∧ a ≠ b ∧
          ((u = a ∧ v = b) ∨ (u = b ∧ v = a))) = true := by
        simp only [decide_eq_true_iff]
        exact ⟨h1, h2, h3, hhit⟩
      rw [hinst, Bool.or_true]
      cases weighted with
      | false => simp [WordGraph.addEdge, hhit]
      | true =>
        by_cases he : g.hasEdge a b
        · have hguv : g.hasEdge u v = true := by
            rcases hhit with ⟨rfl, rfl⟩ | ⟨rfl, rfl⟩
            · exact he
            · rw [hsym]; exact he
          simp [WordGraph.incWeight, he, hguv]
        · simp [WordGraph.incWeight, WordGraph.addEdgeW0, he, hhit]
    · have hinst : decide (va = true ∧ vb = true ∧ a ≠ b ∧
          ((u = a ∧ v = b) ∨ (u = b ∧ v = a))) = false := by
        simp only [decide_eq_false_iff_not]
        tauto
      rw [hinst, Bool.or_false]
      cases weighted with
      | false => simp [WordGraph.addEdge, hhit]
      | true =>
        by_cases he : g.hasEdge a b <;>
          simp [WordGraph.incWeight, WordGraph.addEdgeW0, he, hhit]
  · rw [if_neg hc]
    have hinst : decide (va = true ∧ vb = true ∧ a ≠ b ∧
        ((u = a ∧ v = b) ∨ (u = b ∧ v = a))) = false := by
      simp only [decide_eq_false_iff_not]
      tauto
    rw [hinst, Bool.or_false]

lemma core_weight (fi fj : String × Bool) (g : WordGraph)
    (hg : g.Good) (u v : String) :
    (wordGraphCore fi fj true g).weight u v
      = g.weight u v + (if InstCond fi fj u v then 1 else 0) := by
  obtain ⟨a, va⟩ := fi
  obtain ⟨b, vb⟩ := fj
  obtain ⟨hsym, -, hcons⟩ := hg
  unfold wordGraphCore InstCond
  by_cases hc : va = true ∧ vb = true ∧ a ≠ b
  · rw [if_pos hc]
    obtain ⟨h1, h2, h3⟩ := hc
    by_cases hhit : (u = a ∧ v = b) ∨ (u = b ∧ v = a)
    · have hco : va = true ∧ vb = true ∧ a ≠ b ∧
          ((u = a ∧ v = b) ∨ (u = b ∧ v = a)) := ⟨h1, h2, h3, hhit⟩
      rw [if_pos hco]
      by_cases he : g.hasEdge a b
      · simp [WordGraph.incWeight, he, hhit]
      · have hw0 : g.weight u v = 0 := by
          apply hcons
          rcases hhit with ⟨rfl, rfl⟩ | ⟨rfl, rfl⟩
          · simpa using he
          · rw [hsym]; simpa using he
        simp [WordGraph.incWeight, WordGraph.addEdgeW0, he, hhit, hw0]
    · have hnot : ¬(va = true ∧ vb = true ∧ a ≠ b ∧
          ((u = a ∧ v = b) ∨ (u = b ∧ v = a))) := fun hco => hhit hco.2.2.2
      rw [if_neg hnot]
      by_cases he : g.hasEdge a b <;>
        simp [WordGraph.incWeight, WordGraph.addEdgeW0, he, hhit]
  · have hnot : ¬(va = true ∧ vb = true ∧ a ≠ b ∧
        ((u = a ∧ v = b) ∨ (u = b ∧ v = a))) :=
      fun hco => hc ⟨hco.1, hco.2.1, hco.2.2.1⟩
    rw [if_neg hc, if_neg hnot, add_zero]

lemma core_weight_unweighted (fi fj : String × Bool) (g : WordGraph) :
    (wordGraphCore fi fj false g).weight = g.weight := by
  unfold wordGraphCore
  split
  · rfl
  · rfl

lemma instCond_symm (fi fj : String × Bool) (u v : String) :
    InstCond fi fj u v ↔ InstCond fi fj v u := by
  unfold InstCond; tauto

lemma step_hasEdge (ft : List (String × Bool)) (weighted : Bool)
    (g : WordGraph) (p : Nat × Nat) (hg : g.Good) (u v : String) :
    (wordGraphStep ft weighted g p).hasEdge u v
      = (g.hasEdge u v || decide (IsInstance ft u v p)) :=
  core_hasEdge _ _ weighted g hg u v

lemma step_weight (ft : List (String × Bool)) (g : WordGraph) (p : Nat × Nat)
    (hg : g.Good) (u v : String) :
    (wordGraphStep ft true g p).weight u v
      = g.weight u v + (if IsInstance ft u v p then 1 else 0) :=
  core_weight _ _ g hg u v

lemma isInstance_symm (ft : List (String × Bool)) (u v : String) (p : Nat × Nat) :
    IsInstance ft u v p ↔ IsInstance ft v u p :=
  instCond_symm _ _ u v

lemma step_good (ft : List (String × Bool)) (weighted : Bool)
    (g : WordGraph) (p : Nat × Nat) (hg : g.Good) :
    (wordGraphStep ft weighted g p).Good := by
  have hsym := hg.1
  have hwsym := hg.2.1
  have hcons := hg.2.2
  refine ⟨fun u v => ?_, fun u v => ?_, fun u v h => ?_⟩
  · rw [step_hasEdge ft weighted g p hg u v, step_hasEdge ft weighted g p hg v u,
      hsym u v]
    congr 1
    simp only [decide_eq_decide]
    exact isInstance_symm ft u v p
  · cases weighted with
    | true =>
      rw [step_weight ft g p hg u v, step_weight ft g p hg v u, hwsym u v]
      have hiff : IsInstance ft u v p ↔ IsInstance ft v u p :=
        isInstance_symm ft u v p
      by_cases hi : IsInstance ft u v p
      · rw [if_pos hi, if_pos (hiff.mp hi)]
      · rw [if_neg hi, if_neg (fun hv => hi (hiff.mpr hv))]
    | false =>
      rw [show (wordGraphStep ft false g p).weight = g.weight from
        core_weight_unweighted _ _ g]
      exact hwsym u v
  · rw [step_hasEdge ft weighted g p hg u v] at h
    simp only [Bool.or_eq_false_iff, decide_eq_false_iff_not] at h
    cases weighted with
    | true =>
      rw [step_weight ft g p hg u v, if_neg h.2, hcons u v h.1, add_zero]
    | false =>
      rw [show (wordGraphStep ft false g p).weight = g.weight from
        core_weight_unweighted _ _ g]
      exact hcons u v h.1

lemma fold_word_graph (ft : List (String × Bool)) (weighted : Bool)
    (L : List (Nat × Nat)) (g0 : WordGraph) (hg : g0.Good) :
    (L.foldl (wordGraphStep ft weighted) g0).Good ∧
    (∀ u v, (L.foldl (wordGraphStep ft weighted) g0).hasEdge u v
        = (g0.hasEdge u v || L.any (fun p => decide (IsInstance ft u v p)))) ∧
    (weighted = true → ∀ u v, (L.foldl (wordGraphStep ft weighted) g0).weight u v
        = g0.weight u v
          + ((L.filter (fun p => decide (IsInstance ft u v p))).length : ℚ)) := by
  induction L generalizing g0 with
  | nil => simpa using hg
  | cons p rest ih =>
    obtain ⟨ihGood, ihEdge, ihW⟩ := ih (wordGraphStep ft weighted g0 p)
      (step_good ft weighted g0 p hg)
    refine ⟨ihGood, fun u v => ?_, fun hw u v => ?_⟩
    · rw [List.foldl_cons, ihEdge u v, step_hasEdge ft weighted g0 p hg u v]
      simp [Bool.or_assoc]
    · subst hw
      rw [List.foldl_cons, ihW rfl u v, step_weight ft g0 p hg u v,
        List.filter_cons]
      by_cases hi : IsInstance ft u v p
      · simp [hi]
        push_cast
        ring
      · simp [hi]

lemma mem_windowPairs (n ws i j : Nat) :
    (i, j) ∈ windowPairs n ws ↔ i < n ∧ i + 1 ≤ j ∧ j < min (i + ws) n := by
  unfold windowPairs
  rw [List.mem_flatMap]
  constructor
  · rintro ⟨i', hi', hj⟩
    rw [List.mem_map] at hj
    obtain ⟨j', hj', heq⟩ := hj
    injection heq with hh1 hh2
    subst hh1
    subst hh2
    rw [List.mem_range] at hi'
    rw [List.mem_range'_1] at hj'
    exact ⟨hi', hj'.1, by omega⟩
  · rintro ⟨h1, h2, h3⟩
    refine ⟨i, List.mem_range.mpr h1, ?_⟩
    rw [List.mem_map]
    refine ⟨j, List.mem_range'_1.mpr ⟨h2, by omega⟩, rfl⟩

/-- C1: in `build_word_graph` with window size at least 1, over the
flattened text: (a) in the unweighted (TextRank) variant, starting from an
empty graph, an edge `{u, v}` exists iff some valid-pos word at flattened
position `i` equals one endpoint and a valid-pos word at a position `j`
with `i + 1 ≤ j ≤ i + (window_size − 1)` of the flattened text (distance
counted over all tokens) equals the other, and the two words differ;
(b) no self-edge `{u, u}` is ever created; (c) in the weighted
(SingleRank) variant each such co-occurrence instance contributes exactly
1 to the edge weight: the final weight of `{u, v}` equals the number of
co-occurrence instances, so repeated pairs increment the single edge. -/
theorem build_word_graph_window (sentences : List Sentence)
    (valid_pos : List String) (window_size : Nat) (hws : 1 ≤ window_size) :
    let ft := flattenText sentences valid_pos
    (∀ u v, (build_word_graph ft window_size false WordGraph.empty).hasEdge u v = true ↔
      ∃ i j, i + 1 ≤ j ∧ j ≤ i + (window_size - 1) ∧ j < ft.length ∧
        (ft.getD i ("", false)).2 = true ∧ (ft.getD j ("", false)).2 = true ∧
        (ft.getD i ("", false)).1 ≠ (ft.getD j ("", false)).1 ∧
        ((u = (ft.getD i ("", false)).1 ∧ v = (ft.getD j ("", false)).1) ∨
         (u = (ft.getD j ("", false)).1 ∧ v = (ft.getD i ("", false)).1))) ∧
    (∀ u, (build_word_graph ft window_size false WordGraph.empty).hasEdge u u = false) ∧
    (∀ u v, (build_word_graph ft window_size true WordGraph.empty).weight u v
        = (cooccurrences ft window_size u v : ℚ)) ∧
    (∀ u, (build_word_graph ft window_size true WordGraph.empty).hasEdge u u = false) := by
  intro ft
  obtain ⟨_, hEdgeF, _⟩ :=
    fold_word_graph ft false (windowPairs ft.length window_size)
      WordGraph.empty empty_good
  obtain ⟨_, hEdgeT, hWT⟩ :=
    fold_word_graph ft true (windowPairs ft.length window_size)
      WordGraph.empty empty_good
  have hself : ∀ (i j : Nat) (u : String), ¬ IsInstance ft u u (i, j) := by
    intro i j u hi
    obtain ⟨_, _, hne, hor⟩ := hi
    rcases hor with ⟨h1, h2⟩ | ⟨h1, h2⟩ <;> exact hne (h1 ▸ h2 ▸ rfl)
  refine ⟨fun u v => ?_, fun u => ?_, fun u v => ?_, fun u => ?_⟩
  case refine_3 =>
    rw [build_word_graph, hWT rfl u v]
    simp [WordGraph.empty, cooccurrences]
  · rw [build_word_graph, hEdgeF u v]
    simp only [WordGraph.empty, Bool.false_or, List.any_eq_true,
      decide_eq_true_iff]
    constructor
    · rintro ⟨⟨i, j⟩, hmem, hinst⟩
      rw [mem_windowPairs] at hmem
      obtain ⟨g1, g2, g3, g4⟩ := hinst
      exact ⟨i, j, hmem.2.1, by omega, by omega, g1, g2, g3, g4⟩
    · rintro ⟨i, j, h1, h2, h3, g1, g2, g3, g4⟩
      refine ⟨(i, j), ?_, g1, g2, g3, g4⟩
      rw [mem_windowPairs]
      exact ⟨by omega, h1, by omega⟩
  · rw [build_word_graph, hEdgeF u u]
    simp only [WordGraph.empty, Bool.false_or, List.any_eq_false]
    intro p _
    simpa using hself p.1 p.2 u
  · rw [build_word_graph, hEdgeT u u]
    simp only [WordGraph.empty, Bool.false_or, List.any_eq_false]
    intro p _
    simpa using hself p.1 p.2 u

theorem build_word_graph_window_witness :
    1 ≤ 2 ∧
    (let ft := flattenText
        [⟨["x", "y"], ["N", "N"], ["x", "y"]⟩] ["N"]
     (build_word_graph ft 2 true WordGraph.empty).weight "x" "y"
        = (cooccurrences ft 2 "x" "y" : ℚ)) :=
  ⟨by omega,
   (build_word_graph_window [⟨["x", "y"], ["N", "N"], ["x", "y"]⟩]
      ["N"] 2 (by omega)).2.2.1 "x" "y"⟩

/-- The effect of `SingleRank.weight_candidates` on the word graph: line
103 of `single_rank.py` calls `build_word_graph` on the instance's
existing graph; the subsequent pagerank and candidate weighting read the
graph and assign candidate weights but do not modify the graph. -/
def weight_candidates_graph (ft : List (String × Bool)) (window_size : Nat)
    (g : WordGraph) : WordGraph :=
  build_word_graph ft window_size true g

/-- C8: `weight_candidates` is not idempotent on the instance's graph:
whenever the word graph built by the first call has at least one weighted
edge, a second call accumulates the edge weights again, so the graph
state after two calls differs from the state after one. -/
theorem weight_candidates_not_idempotent (ft : List (String × Bool))
    (window_size : Nat)
    (h : ∃ u v, (weight_candidates_graph ft window_size WordGraph.empty).weight u v ≠ 0) :
    weight_candidates_graph ft window_size
        (weight_candidates_graph ft window_size WordGraph.empty)
      ≠ weight_candidates_graph ft window_size WordGraph.empty := by
  obtain ⟨u, v, hne⟩ := h
  intro heq
  have hgood1 : (weight_candidates_graph ft window_size WordGraph.empty).Good :=
    (fold_word_graph ft true _ _ empty_good).1
  have h1 : (weight_candidates_graph ft window_size WordGraph.empty).weight u v
      = (((windowPairs ft.length window_size).filter
          (fun p => decide (IsInstance ft u v p))).length : ℚ) := by
    have := (fold_word_graph ft true (windowPairs ft.length window_size)
      WordGraph.empty empty_good).2.2 rfl u v
    simpa [weight_candidates_graph, build_word_graph, WordGraph.empty] using this
  have h2 : (weight_candidates_graph ft window_size
        (weight_candidates_graph ft window_size WordGraph.empty)).weight u v
      = (weight_candidates_graph ft window_size WordGraph.empty).weight u v
        + (((windowPairs ft.length window_size).filter
            (fun p => decide (IsInstance ft u v p))).length : ℚ) :=
    (fold_word_graph ft true (windowPairs ft.length window_size)
      _ hgood1).2.2 rfl u v
  rw [heq] at h2
  rw [h1] at h2 hne
  have : (((windowPairs ft.length window_size).filter
      (fun p => decide (IsInstance ft u v p))).length : ℚ) = 0 := by
    linarith
  exact hne this

lemma weight_ab_ne_zero :
    (weight_candidates_graph [("a", true), ("b", true)] 2
      WordGraph.empty).weight "a" "b" ≠ 0 := by
  have h2 := (fold_word_graph [("a", true), ("b", true)] true
    (windowPairs (List.length [("a", true), ("b", true)]) 2)
    WordGraph.empty empty_good).2.2 rfl "a" "b"
  rw [weight_candidates_graph, build_word_graph, h2]
  simp only [WordGraph.empty, zero_add]
  intro h0
  rw [Nat.cast_eq_zero] at h0
  have hcount : cooccurrences [("a", true), ("b", true)] 2 "a" "b" = 1 := by
    decide
  rw [cooccurrences] at hcount
  omega

theorem weight_candidates_not_idempotent_witness :
    (∃ u v, (weight_candidates_graph [("a", true), ("b", true)] 2
        WordGraph.empty).weight u v ≠ 0) ∧
    weight_candidates_graph [("a", true), ("b", true)] 2
        (weight_candidates_graph [("a", true), ("b", true)] 2 WordGraph.empty)
      ≠ weight_candidates_graph [("a", true), ("b", true)] 2 WordGraph.empty :=
  ⟨⟨"a", "b", weight_ab_ne_zero⟩,
   weight_candidates_not_idempotent _ _ ⟨"a", "b", weight_ab_ne_zero⟩⟩

/-! ### Claims C2 and C5: `Extractor.is_redundant` and
`Extractor.get_n_best` (`extractor.py`, lines 85-197) -/

/-- Python's `candidate in sc` on strings: character-level substring
containment. -/
def in_str (sub hay : String) : Bool :=
  decide (sub.toList <:+: hay.toList)

/-- The spec's word-level containment: the candidate's words (canonical
form split on spaces) occur contiguously among the other's words. -/
def word_contained (a b : String) : Bool :=
  decide (a.toList.splitOn ' ' <:+: b.toList.splitOn ' ')

/-- `Extractor.is_redundant` (lines 85-123): false when the candidate's
length is below `minimum_length`; otherwise true iff the canonical form
occurs (`candidate in sc`, substring containment) in some already
selected canonical form. -/
def is_redundant (cs : Candidates) (candidate : String)
    (selected_candidates : List String) (minimum_length : Nat) : Bool :=
  if (lookupC cs candidate).length < minimum_length then false
  else selected_candidates.any (fun sc => in_str candidate sc)

/-- `sorted(self.candidates, key=lambda c: self.candidates[c].weight,
reverse=True)` (lines 153-155): stable descending sort of the
insertion-ordered keys.  Python's sort is stable; `List.insertionSort`
with this relation is the stable descending sort: an element is inserted
before the first already-placed element whose weight does not exceed its
own, hence after every earlier-listed element of equal weight. -/
def bestsOf (cs : Candidates) : List String :=
  List.insertionSort
    (fun a b => (lookupC cs b).weight ≤ (lookupC cs a).weight)
    (cs.map Prod.fst)

/-- The redundancy-filtering loop of `get_n_best` (lines 158-179): skip
candidates for which `is_redundant` holds (with the default
`minimum_length = 1`), append the others, and break once `n` have been
collected. -/
def filterRedundants (cs : Candidates) (n : Nat) :
    List String → List String → List String
  | [], acc => acc
  | c :: rest, acc =>
    if is_redundant cs c acc 1 then filterRedundants cs n rest acc
    else
      if n ≤ acc.length + 1 then acc ++ [c]
      else filterRedundants cs n rest (acc ++ [c])

/-- The candidate keys selected by `get_n_best`: the (optionally
redundancy-filtered) sorted keys, cut to `bests[:min(n, len(bests))]`. -/
def get_n_best_keys (cs : Candidates) (n : Nat) (remove_redundants : Bool) :
    List String :=
  let bests := bestsOf cs
  let bests := if remove_redundants then filterRedundants cs n bests [] else bests
  bests.take (min n bests.length)

/-- `get_n_best` (lines 125-197): `(candidate, weight)` pairs; the
candidate is rendered as the canonical form when `normalized`, else as
the space-joined words of the first occurrence
(`' '.join(candidate.all_words[0])`; the first occurrence exists for
every candidate actually created, see `candidate_invariant`). -/
def get_n_best (cs : Candidates) (n : Nat)
    (remove_redundants normalized : Bool) : List (String × ℚ) :=
  (get_n_best_keys cs n remove_redundants).map (fun c =>
    if normalized then (c, (lookupC cs c).weight)
    else (String.intercalate " " ((lookupC cs c).all_words.headD []),
          (lookupC cs c).weight))

lemma is_redundant_iff (cs : Candidates) (c : String) (sel : List String)
    (ml : Nat) :
    is_redundant cs c sel ml = true ↔
      (ml ≤ (lookupC cs c).length ∧ ∃ sc ∈ sel, c.toList <:+: sc.toList) := by
  unfold is_redundant
  by_cases hl : (lookupC cs c).length < ml
  · simp [hl]
    try omega
  · simp [hl, in_str, List.any_eq_true]
    try omega

lemma filterRedundants_append (cs : Candidates) (n : Nat) :
    ∀ (l acc : List String), ∃ s, filterRedundants cs n l acc = acc ++ s ∧
      s <+ l := by
  intro l
  induction l with
  | nil => exact fun acc => ⟨[], by simp [filterRedundants]⟩
  | cons c rest ih =>
    intro acc
    rw [filterRedundants]
    by_cases hr : is_redundant cs c acc 1
    · obtain ⟨s, hs, hsub⟩ := ih acc
      exact ⟨s, by rw [if_pos hr]; exact hs, hsub.cons c⟩
    · rw [if_neg hr]
      by_cases hn : n ≤ acc.length + 1
      · exact ⟨[c], by rw [if_pos hn], by simp⟩
      · obtain ⟨s, hs, hsub⟩ := ih (acc ++ [c])
        refine ⟨c :: s, ?_, hsub.cons₂ c⟩
        rw [if_neg hn, hs, List.append_assoc]
        rfl

lemma bestsOf_sorted (cs : Candidates) :
    (bestsOf cs).Pairwise
      (fun a b => (lookupC cs b).weight ≤ (lookupC cs a).weight) := by
  letI : IsTotal String
      (fun a b => (lookupC cs b).weight ≤ (lookupC cs a).weight) :=
    ⟨fun a b => le_total _ _⟩
  letI : IsTrans String
      (fun a b => (lookupC cs b).weight ≤ (lookupC cs a).weight) :=
    ⟨fun a b c hab hbc => le_trans hbc hab⟩
  exact List.sorted_insertionSort _ _

lemma bestsOf_perm (cs : Candidates) : (bestsOf cs).Perm (cs.map Prod.fst) :=
  List.perm_insertionSort _ _

lemma get_n_best_keys_sublist (cs : Candidates) (n : Nat) (rr : Bool) :
    List.Sublist (get_n_best_keys cs n rr) (bestsOf cs) := by
  cases rr with
  | false =>
    simp only [get_n_best_keys, Bool.false_eq_true, if_false]
    exact List.take_sublist _ _
  | true =>
    simp only [get_n_best_keys, if_true]
    obtain ⟨s, hs, hsub⟩ := filterRedundants_append cs n (bestsOf cs) []
    rw [hs, List.nil_append]
    exact (List.take_sublist _ _).trans hsub

lemma sublist_pair_order :
    ∀ {s t : List String}, List.Sublist s t → t.Nodup →
      ∀ {a b : String}, List.Sublist [a, b] t → a ∈ s → b ∈ s →
        List.Sublist [a, b] s := by
  intro s t hst
  induction hst with
  | slnil =>
    intro _ a b _ ha _
    cases ha
  | cons x hst ih =>
    intro hnd a b hab ha hb
    obtain ⟨hx, hnd'⟩ := List.nodup_cons.mp hnd
    cases hab with
    | cons _ hab' => exact ih hnd' hab' ha hb
    | cons₂ _ hab' =>
      exact absurd (hst.subset ha) hx
  | cons₂ x hst ih =>
    intro hnd a b hab ha hb
    obtain ⟨hx, hnd'⟩ := List.nodup_cons.mp hnd
    cases hab with
    | cons _ hab' =>
      rcases List.mem_cons.mp ha with rfl | ha'
      · exact absurd (hab'.subset (by simp)) hx
      · rcases List.mem_cons.mp hb with rfl | hb'
        · exact absurd (hab'.subset (by simp)) hx
        · exact (ih hnd' hab' ha' hb').cons x
    | cons₂ _ hab' =>
      rcases List.mem_cons.mp hb with rfl | hb'
      · exact absurd (hab'.subset (by simp)) hx
      · exact (List.singleton_sublist.mpr hb').cons₂ x

/-- C5: for every candidate map with distinct canonical forms and every
`n`, `get_n_best` returns at most `n` `(string, weight)` pairs, ordered
by non-increasing weight, and ties among equal-weight candidates keep the
candidates' insertion order (the sort is stable): whenever `a` precedes
`b` in the map and their weights are equal, `a` precedes `b` among the
selected keys. -/
theorem get_n_best_sorted_bounded (cs : Candidates) (n : Nat)
    (rr norm : Bool) (hnd : (cs.map Prod.fst).Nodup) :
    (get_n_best cs n rr norm).length ≤ n ∧
    (get_n_best cs n rr norm).Pairwise (fun p q => q.2 ≤ p.2) ∧
    (∀ a b, List.Sublist [a, b] (cs.map Prod.fst) →
      (lookupC cs a).weight = (lookupC cs b).weight →
      a ∈ get_n_best_keys cs n rr → b ∈ get_n_best_keys cs n rr →
      List.Sublist [a, b] (get_n_best_keys cs n rr)) := by
  have hkeys : List.Sublist (get_n_best_keys cs n rr) (bestsOf cs) :=
    get_n_best_keys_sublist cs n rr
  refine ⟨?_, ?_, ?_⟩
  · rw [get_n_best, List.length_map]
    cases rr with
    | false =>
      simp only [get_n_best_keys, Bool.false_eq_true, if_false,
        List.length_take]
      omega
    | true =>
      simp only [get_n_best_keys, if_true, List.length_take]
      omega
  · have hp : (get_n_best_keys cs n rr).Pairwise
        (fun a b => (lookupC cs b).weight ≤ (lookupC cs a).weight) :=
      (bestsOf_sorted cs).sublist hkeys
    rw [get_n_best, List.pairwise_map]
    cases norm with
    | true => simpa using hp
    | false => simpa using hp
  · intro a b hab heq hain hbin
    have hr : (lookupC cs b).weight ≤ (lookupC cs a).weight := le_of_eq heq.symm
    have h1 : List.Sublist [a, b] (bestsOf cs) :=
      List.pair_sublist_insertionSort hr hab
    have hndb : (bestsOf cs).Nodup := (bestsOf_perm cs).nodup_iff.mpr hnd
    exact sublist_pair_order hkeys hndb h1 hain hbin

theorem get_n_best_sorted_bounded_witness :
    (([("ab", Candidate.init), ("b", Candidate.init)].map Prod.fst).Nodup) ∧
    ((get_n_best [("ab", Candidate.init), ("b", Candidate.init)] 1
        false true).length ≤ 1 ∧
     (get_n_best [("ab", Candidate.init), ("b", Candidate.init)] 1
        false true).Pairwise (fun p q => q.2 ≤ p.2) ∧
     (∀ a b, List.Sublist [a, b]
          ([("ab", Candidate.init), ("b", Candidate.init)].map Prod.fst) →
        (lookupC [("ab", Candidate.init), ("b", Candidate.init)] a).weight
          = (lookupC [("ab", Candidate.init), ("b", Candidate.init)] b).weight →
        a ∈ get_n_best_keys [("ab", Candidate.init), ("b", Candidate.init)] 1 false →
        b ∈ get_n_best_keys [("ab", Candidate.init), ("b", Candidate.init)] 1 false →
        List.Sublist [a, b]
          (get_n_best_keys [("ab", Candidate.init), ("b", Candidate.init)] 1 false))) :=
  ⟨by decide,
   get_n_best_sorted_bounded [("ab", Candidate.init), ("b", Candidate.init)]
     1 false true (by decide)⟩

lemma mem_filterRedundants_subset (cs : Candidates) (n : Nat)
    (l acc : List String) :
    ∀ x ∈ filterRedundants cs n l acc, x ∈ acc ∨ x ∈ l := by
  obtain ⟨s, hs, hsub⟩ := filterRedundants_append cs n l acc
  rw [hs]
  intro x hx
  rcases List.mem_append.mp hx with h | h
  · exact Or.inl h
  · exact Or.inr (hsub.subset h)

/-- If `a` has a "blocker" — an already-selected canonical form, or a
canonical form still ahead of it in the remaining list, containing `a` as
a substring — then the redundancy-filtering loop never selects `a`. -/
lemma blocked_not_mem_filterRedundants (cs : Candidates) (n : Nat)
    (a : String) (hlen : 1 ≤ (lookupC cs a).length) :
    ∀ (l acc : List String), l.Nodup → a ∈ l → a ∉ acc →
      ((∃ s ∈ acc, a.toList <:+: s.toList) ∨
       (∃ s, (a.toList <:+: s.toList) ∧ List.Sublist [s, a] l)) →
      a ∉ filterRedundants cs n l acc := by
  intro l
  induction l with
  | nil =>
    intro acc _ h
    cases h
  | cons c rest ih =>
    intro acc hnd hal hacc hblock
    obtain ⟨hc, hndr⟩ := List.nodup_cons.mp hnd
    rw [filterRedundants]
    by_cases hceqa : c = a
    · subst hceqa
      rcases hblock with ⟨s, hsacc, hsub⟩ | ⟨s, hsub, hpair⟩
      · have hred : is_redundant cs c acc 1 = true :=
          (is_redundant_iff cs c acc 1).mpr ⟨hlen, s, hsacc, hsub⟩
        rw [if_pos hred]
        intro hmem
        rcases mem_filterRedundants_subset cs n rest acc c hmem with h | h
        · exact hacc h
        · exact hc h
      · cases hpair with
        | cons _ h => exact absurd (h.subset (by simp)) hc
        | cons₂ _ h => exact absurd (h.subset (by simp)) hc
    · have har : a ∈ rest := by
        rcases List.mem_cons.mp hal with h | h
        · exact absurd h.symm hceqa
        · exact h
      by_cases hr : is_redundant cs c acc 1 = true
      · rw [if_pos hr]
        apply ih acc hndr har hacc
        rcases hblock with ⟨s, hsacc, hsub⟩ | ⟨s, hsub, hpair⟩
        · exact Or.inl ⟨s, hsacc, hsub⟩
        · cases hpair with
          | cons _ h => exact Or.inr ⟨s, hsub, h⟩
          | cons₂ _ h =>
            obtain ⟨-, s', hs'acc, hsub'⟩ := (is_redundant_iff cs c acc 1).mp hr
            exact Or.inl ⟨s', hs'acc, hsub.trans hsub'⟩
      · rw [if_neg hr]
        have hanotacc' : a ∉ acc ++ [c] := by
          intro hmem
          rcases List.mem_append.mp hmem with h | h
          · exact hacc h
          · rw [List.mem_singleton] at h
            exact hceqa h.symm
        by_cases hn : n ≤ acc.length + 1
        · rw [if_pos hn]
          exact hanotacc'
        · rw [if_neg hn]
          apply ih (acc ++ [c]) hndr har hanotacc'
          rcases hblock with ⟨s, hsacc, hsub⟩ | ⟨s, hsub, hpair⟩
          · exact Or.inl ⟨s, List.mem_append_left _ hsacc, hsub⟩
          · cases hpair with
            | cons _ h => exact Or.inr ⟨s, hsub, h⟩
            | cons₂ _ h =>
              exact Or.inl ⟨c, List.mem_append_right _ (by simp), hsub⟩

/-- The concrete candidate map for the C2 counterexample: "ab" weighs 2,
"b" weighs 1, and "b" is a character substring — but not a word-level
part — of "ab". -/
def cexCands : Candidates :=
  [("ab", ⟨[["ab"]], [0], [["N"]], ["ab"], 2⟩),
   ("b", ⟨[["b"]], [2], [["N"]], ["b"], 1⟩)]

/-- C2 counterexample: the claim's "if and only if word-level
containment" fails.  The candidate "b" is dropped by the redundancy
filter (it would be returned without the filter, so the cut to `n` is not
the cause), although its canonical form is not a word-level subsequence
of the only higher-ranked, selected candidate "ab" — Python's
`candidate in sc` is character-substring containment. -/
theorem is_redundant_claim_counterexample :
    "b" ∉ (get_n_best cexCands 10 true true).map Prod.fst ∧
    "b" ∈ (get_n_best cexCands 10 false true).map Prod.fst ∧
    get_n_best cexCands 10 true true = [("ab", 2)] ∧
    word_contained "b" "ab" = false ∧
    is_redundant cexCands "b" ["ab"] 1 = true := by
  refine ⟨?_, ?_, ?_, ?_, ?_⟩ <;> decide

/-- C2 (amended): in `get_n_best` with `remove_redundants=True`, a
candidate is skipped as redundant iff its length reaches the minimum
length (1) and its canonical form is contained as a character-level
substring (Python `in`) in the canonical form of an already-selected
candidate; consequently, whenever candidate `a`'s canonical form is a
character substring of a higher-ranked candidate `b`'s, `a` never appears
in the redundancy-filtered result. -/
theorem redundant_filtered_out (cs : Candidates) (n : Nat) (a b : String)
    (hnd : (cs.map Prod.fst).Nodup)
    (hsub : a.toList <:+: b.toList)
    (hlen : 1 ≤ (lookupC cs a).length)
    (hrank : List.Sublist [b, a] (bestsOf cs)) :
    (∀ sel ml c, is_redundant cs c sel ml = true ↔
        (ml ≤ (lookupC cs c).length ∧ ∃ sc ∈ sel, c.toList <:+: sc.toList)) ∧
    a ∉ get_n_best_keys cs n true ∧
    a ∉ (get_n_best cs n true true).map Prod.fst := by
  have hmem : a ∉ filterRedundants cs n (bestsOf cs) [] := by
    apply blocked_not_mem_filterRedundants cs n a hlen (bestsOf cs) []
      ((bestsOf_perm cs).nodup_iff.mpr hnd) (hrank.subset (by simp))
      (by simp)
    exact Or.inr ⟨b, hsub, hrank⟩
  have hkeys : a ∉ get_n_best_keys cs n true := by
    intro hmem'
    apply hmem
    simp only [get_n_best_keys, if_true] at hmem'
    exact (List.take_sublist _ _).subset hmem'
  refine ⟨fun sel ml c => is_redundant_iff cs c sel ml, hkeys, ?_⟩
  intro hmem'
  apply hkeys
  simp only [get_n_best, List.map_map, List.mem_map] at hmem'
  obtain ⟨c, hc, hceq⟩ := hmem'
  simpa [← hceq] using hc

theorem redundant_filtered_out_witness :
    ((cexCands.map Prod.fst).Nodup ∧
     ("b".toList <:+: "ab".toList) ∧
     1 ≤ (lookupC cexCands "b").length ∧
     List.Sublist ["ab", "b"] (bestsOf cexCands)) ∧
    ((∀ sel ml c, is_redundant cexCands c sel ml = true ↔
        (ml ≤ (lookupC cexCands c).length ∧
         ∃ sc ∈ sel, c.toList <:+: sc.toList)) ∧
     "b" ∉ get_n_best_keys cexCands 10 true ∧
     "b" ∉ (get_n_best cexCands 10 true true).map Prod.fst) :=
  ⟨⟨by decide, by decide, by decide, by decide⟩,
   redundant_filtered_out cexCands 10 "b" "ab"
     (by decide) (by decide) (by decide) (by decide)⟩

/-! ### Claim C3: `Extractor.select_candidates_with_longest_sequences`
(`extractor.py`, lines 263-309) -/

/-- One candidate occurrence as passed to `add_candidate_occurrence`. -/
structure Occurrence where
  words : List String
  offset : Nat
  pos_tags : List String
  normalized_words : List String
deriving DecidableEq

/-- Python slice `xs[first : last + 1]`. -/
def slice (xs : List String) (first last : Nat) : List String :=
  (xs.drop first).take (last + 1 - first)

/-- The occurrence added for the run `[first, last]` of a sentence whose
first token has document-wide offset `offset_shift + first`. -/
def mkOcc (s : Sentence) (shift first last : Nat) : Occurrence :=
  { words := slice s.words first last
    offset := shift + first
    pos_tags := slice s.pos_tags first last
    normalized_words := slice s.normalized_words first last }

/-- The inner loop over one sentence's enumerated key values (lines
284-307), carrying the `sequence_offsets` accumulator `seq`: a valid
value is appended and, unless it sits at the last word of the sentence,
the loop continues; otherwise the accumulated sequence (if nonempty) is
flushed as one occurrence and the accumulator is reset. -/
def scanLoop (s : Sentence) (valid : List String) (shift : Nat) :
    List (Nat × String) → List Nat → List Occurrence
  | [], _ => []
  | (j, value) :: rest, seq =>
    if value ∈ valid then
      if j < s.length - 1 then scanLoop s valid shift rest (seq ++ [j])
      else
        (if 0 < (seq ++ [j]).length then
          [mkOcc s shift ((seq ++ [j]).headD 0) ((seq ++ [j]).getLastD 0)]
         else []) ++ scanLoop s valid shift rest []
    else
      (if 0 < seq.length then
        [mkOcc s shift (seq.headD 0) (seq.getLastD 0)]
       else []) ++ scanLoop s valid shift rest []

/-- `select_candidates_with_longest_sequences`: scans every sentence with
the accumulated document offset shift; returns the emitted candidate
occurrences in emission order. -/
def select_candidates_with_longest_sequences (sentences : List Sentence)
    (key : Sentence → List String) (valid_values : List String) :
    List Occurrence :=
  (sentences.foldl
    (fun acc s =>
      (acc.1 ++ scanLoop s valid_values acc.2 (key s).enum [],
       acc.2 + s.length))
    (([] : List Occurrence), 0)).1

/-- Reference runs scanner: collects `(start, end)` of every maximal
block of consecutive valid values; `n` is the position of the list head,
`cur` the start of the currently open block. -/
def runsAux (valid : List String) : List String → Nat → Option Nat →
    List (Nat × Nat)
  | [], n, none => []
  | [], n, some a => [(a, n - 1)]
  | v :: rest, n, none =>
    if v ∈ valid then runsAux valid rest (n + 1) (some n)
    else runsAux valid rest (n + 1) none
  | v :: rest, n, some a =>
    if v ∈ valid then runsAux valid rest (n + 1) (some a)
    else (a, n - 1) :: runsAux valid rest (n + 1) none

/-- The maximal valid runs of a value list. -/
def maximalRuns (valid vals : List String) : List (Nat × Nat) :=
  runsAux valid vals 0 none

/-- Position `k` of the value list holds a valid value. -/
def valOk (valid vals : List String) (k : Nat) : Prop :=
  vals.getD k "" ∈ valid

instance (valid vals : List String) (k : Nat) :
    Decidable (valOk valid vals k) := by
  unfold valOk; infer_instance

/-- `(a, b)` is a maximal run of valid values: every position of `[a, b]`
is valid and the run extends neither left nor right. -/
def IsMaxRun (valid vals : List String) (a b : Nat) : Prop :=
  a ≤ b ∧ b < vals.length ∧
  (∀ k, a ≤ k → k ≤ b → valOk valid vals k) ∧
  (a = 0 ∨ ¬ valOk valid vals (a - 1)) ∧
  (b = vals.length - 1 ∨ ¬ valOk valid vals (b + 1))

lemma scanLoop_eq_runsAux (s : Sentence) (valid : List String)
    (shift : Nat) :
    ∀ (tail : List String) (j0 : Nat) (seq : List Nat) (cur : Option Nat),
      j0 + tail.length = s.length →
      (cur = none → seq = []) →
      (∀ a, cur = some a → seq ≠ [] ∧ seq.headD 0 = a ∧
          seq.getLastD 0 = j0 - 1 ∧ 1 ≤ j0 ∧ j0 < s.length) →
      scanLoop s valid shift (List.enumFrom j0 tail) seq
        = (runsAux valid tail j0 cur).map (fun r => mkOcc s shift r.1 r.2) := by
  intro tail
  induction tail with
  | nil =>
    intro j0 seq cur hcount hnone hsome
    cases cur with
    | none => simp [scanLoop, runsAux]
    | some a =>
      obtain ⟨-, -, -, -, hlt⟩ := hsome a rfl
      simp only [List.length_nil, Nat.add_zero] at hcount
      omega
  | cons v rest ih =>
    intro j0 seq cur hcount hnone hsome
    rw [List.length_cons] at hcount
    rw [List.enumFrom, scanLoop]
    by_cases hv : v ∈ valid
    · rw [if_pos hv]
      by_cases hj : j0 < s.length - 1
      · rw [if_pos hj]
        cases cur with
        | none =>
          have hseq := hnone rfl
          subst hseq
          rw [runsAux, if_pos hv]
          exact ih (j0 + 1) [j0] (some j0) (by omega) (by intro h; cases h)
            (by intro a ha; cases ha
                exact ⟨by simp, by simp, by simp, by omega, by omega⟩)
        | some a =>
          obtain ⟨hne, hhd, hlast, hj1, hlt⟩ := hsome a rfl
          rw [runsAux, if_pos hv]
          apply ih (j0 + 1) (seq ++ [j0]) (some a) (by omega)
            (by intro h; cases h)
          intro a' ha'
          cases ha'
          refine ⟨by simp, ?_, by simp, by omega, by omega⟩
          rcases seq with _ | ⟨x, xs⟩
          · exact absurd rfl hne
          · simpa using hhd
      · rw [if_neg hj]
        -- at the last word: the rest of the sentence is empty
        have hrest : rest = [] := by
          have h0 : rest.length = 0 := by omega
          exact List.eq_nil_of_length_eq_zero h0
        subst hrest
        cases cur with
        | none =>
          have hseq := hnone rfl
          subst hseq
          rw [runsAux, if_pos hv, runsAux]
          simp [scanLoop]
        | some a =>
          obtain ⟨hne, hhd, hlast, hj1, hlt⟩ := hsome a rfl
          rw [runsAux, if_pos hv, runsAux]
          have hh : (seq ++ [j0]).headD 0 = a := by
            rcases seq with _ | ⟨x, xs⟩
            · exact absurd rfl hne
            · simpa using hhd
          have hlast2 : (seq ++ [j0]).getLastD 0 = j0 := by simp
          rw [if_pos (by simp : 0 < (seq ++ [j0]).length), hh, hlast2]
          simp [scanLoop]
    · rw [if_neg hv]
      cases cur with
      | none =>
        have hseq := hnone rfl
        subst hseq
        rw [runsAux, if_neg hv]
        simpa using ih (j0 + 1) [] none (by omega) (fun _ => rfl)
          (by intro a ha; cases ha)
      | some a =>
        obtain ⟨hne, hhd, hlast, hj1, hlt⟩ := hsome a rfl
        rw [runsAux, if_neg hv]
        have hpos : 0 < seq.length := List.length_pos.mpr hne
        rw [if_pos hpos, hhd, hlast, List.map_cons, List.singleton_append]
        congr 1
        exact ih (j0 + 1) [] none (by omega) (fun _ => rfl)
          (by intro a ha; cases ha)

/-- Lower bound on the start of a run produced by the scanner. -/
def curLB : Option Nat → Nat → Nat → Prop
  | none, n, x => n ≤ x
  | some a, n, x => x = a ∨ n ≤ x

lemma getD_drop_headD (l : List String) (n : Nat) (d : String) :
    (l.drop n).headD d = l.getD n d := by
  induction l generalizing n with
  | nil => cases n <;> simp
  | cons x xs ih =>
    cases n with
    | zero => simp
    | succ m => simpa using ih m

lemma runsAux_mem_iff (valid vals : List String) :
    ∀ (tail : List String) (n : Nat) (cur : Option Nat),
      tail = vals.drop n →
      (cur = none → (n = 0 ∨ ¬ valOk valid vals (n - 1))) →
      (∀ a, cur = some a → 1 ≤ n ∧ n ≤ vals.length ∧ a ≤ n - 1 ∧
          (∀ k, a ≤ k → k < n → valOk valid vals k) ∧
          (a = 0 ∨ ¬ valOk valid vals (a - 1))) →
      ∀ x y, (x, y) ∈ runsAux valid tail n cur ↔
        (IsMaxRun valid vals x y ∧ curLB cur n x) := by
  intro tail
  induction tail with
  | nil =>
    intro n cur htail hnone hsome x y
    have hlen : vals.length ≤ n := by
      by_contra h
      have := congrArg List.length htail
      simp only [List.length_nil, List.length_drop] at this
      omega
    cases cur with
    | none =>
      simp only [runsAux, List.not_mem_nil, false_iff, curLB]
      rintro ⟨⟨h1, h2, h3, h4, h5⟩, h6⟩
      omega
    | some a =>
      obtain ⟨hn1, hn2, ha, hvalid, hleft⟩ := hsome a rfl
      have hne : n = vals.length := le_antisymm hn2 hlen
      simp only [runsAux, List.mem_singleton, curLB, Prod.mk.injEq]
      constructor
      · rintro ⟨rfl, rfl⟩
        refine ⟨⟨by omega, by omega, ?_, hleft, Or.inl (by omega)⟩, Or.inl rfl⟩
        intro k hk1 hk2
        exact hvalid k hk1 (by omega)
      · rintro ⟨⟨h1, h2, h3, h4, h5⟩, h6⟩
        have hx : x = a := by
          rcases h6 with h | h
          · exact h
          · omega
        subst hx
        refine ⟨rfl, ?_⟩
        by_contra hy
        have hy2 : y + 1 ≤ n - 1 := by omega
        rcases h5 with h | h
        · omega
        · exact h (hvalid (y + 1) (by omega) (by omega))
  | cons v rest ih =>
    intro n cur htail hnone hsome x y
    have hn : n < vals.length := by
      by_contra h
      rw [List.drop_eq_nil_of_le (by omega)] at htail
      cases htail
    have hv0 : vals.getD n "" = v := by
      rw [← getD_drop_headD, ← htail]
      rfl
    have hrest : rest = vals.drop (n + 1) := by
      rw [← List.tail_drop, ← htail]
      rfl
    by_cases hv : v ∈ valid
    · have hvOk : valOk valid vals n := by rw [valOk, hv0]; exact hv
      cases cur with
      | none =>
        rw [runsAux, if_pos hv]
        rw [ih (n + 1) (some n) hrest (by intro h; cases h)
          (by intro a ha
              cases ha
              refine ⟨by omega, by omega, by omega, ?_, hnone rfl⟩
              intro k hk1 hk2
              have : k = n := by omega
              subst this
              exact hvOk)]
        exact and_congr_right fun _ => by simp only [curLB]; omega
      | some a =>
        obtain ⟨hn1, hn2, ha, hvalid, hleft⟩ := hsome a rfl
        rw [runsAux, if_pos hv]
        rw [ih (n + 1) (some a) hrest (by intro h; cases h)
          (by intro a' ha'
              cases ha'
              refine ⟨by omega, by omega, by omega, ?_, hleft⟩
              intro k hk1 hk2
              rcases Nat.lt_or_ge k n with h | h
              · exact hvalid k hk1 h
              · have : k = n := by omega
                subst this
                exact hvOk)]
        refine and_congr_right fun hm => ?_
        simp only [curLB]
        obtain ⟨h1, h2, h3, h4, h5⟩ := hm
        constructor
        · intro h
          omega
        · rintro (rfl | h)
          · exact Or.inl rfl
          · rcases Nat.lt_or_ge x (n + 1) with hx | hx
            · have hxn : x = n := by omega
              subst hxn
              rcases h4 with h4 | h4
              · omega
              · exact absurd (hvalid (x - 1) (by omega) (by omega)) h4
            · exact Or.inr hx
    · have hnvOk : ¬ valOk valid vals n := by rw [valOk, hv0]; exact hv
      cases cur with
      | none =>
        rw [runsAux, if_neg hv]
        rw [ih (n + 1) none hrest
          (by intro _; exact Or.inr (by simpa using hnvOk))
          (by intro a ha; cases ha)]
        refine and_congr_right fun hm => ?_
        simp only [curLB]
        obtain ⟨h1, h2, h3, h4, h5⟩ := hm
        constructor
        · intro h
          omega
        · intro h
          rcases Nat.lt_or_ge x (n + 1) with hx | hx
          · have hxn : x = n := by omega
            subst hxn
            exact absurd (h3 x le_rfl h1) hnvOk
          · exact hx
      | some a =>
        obtain ⟨hn1, hn2, ha, hvalid, hleft⟩ := hsome a rfl
        rw [runsAux, if_neg hv]
        rw [List.mem_cons, ih (n + 1) none hrest
          (by intro _; exact Or.inr (by simpa using hnvOk))
          (by intro a' ha'; cases ha')]
        simp only [curLB, Prod.mk.injEq]
        constructor
        · rintro (⟨rfl, rfl⟩ | ⟨hm, hx⟩)
          · refine ⟨⟨by omega, by omega, ?_, hleft, Or.inr (by
                have : n - 1 + 1 = n := by omega
                rw [this]
                exact hnvOk)⟩, Or.inl rfl⟩
            intro k hk1 hk2
            exact hvalid k hk1 (by omega)
          · exact ⟨hm, Or.inr (by omega)⟩
        · rintro ⟨hm, hx⟩
          obtain ⟨h1, h2, h3, h4, h5⟩ := hm
          rcases hx with rfl | hx
          · left
            refine ⟨rfl, ?_⟩
            have hyn : y < n := by
              by_contra hy
              exact hnvOk (h3 n (by omega) (by omega))
            by_contra hy
            have hy2 : y + 1 ≤ n - 1 := by omega
            rcases h5 with h | h
            · omega
            · exact h (hvalid (y + 1) (by omega) (by omega))
          · right
            rcases Nat.lt_or_ge x (n + 1) with hxx | hxx
            · have hxn : x = n := by omega
              subst hxn
              exact absurd (h3 x le_rfl h1) hnvOk
            · exact ⟨⟨h1, h2, h3, h4, h5⟩, hxx⟩

lemma maximalRuns_mem_iff (valid vals : List String) (x y : Nat) :
    (x, y) ∈ maximalRuns valid vals ↔ IsMaxRun valid vals x y := by
  have h := runsAux_mem_iff valid vals vals 0 none (by simp)
    (fun _ => Or.inl rfl) (fun a ha => by cases ha) x y
  simpa [maximalRuns, curLB] using h

lemma runsAux_start_lb (valid : List String) :
    ∀ (tail : List String) (n : Nat) (cur : Option Nat) (r : Nat × Nat),
      r ∈ runsAux valid tail n cur → curLB cur n r.1 := by
  intro tail
  induction tail with
  | nil =>
    intro n cur r hr
    cases cur with
    | none => cases hr
    | some a =>
      rw [runsAux, List.mem_singleton] at hr
      subst hr
      exact Or.inl rfl
  | cons v rest ih =>
    intro n cur r hr
    by_cases hv : v ∈ valid
    · cases cur with
      | none =>
        rw [runsAux, if_pos hv] at hr
        have := ih (n + 1) (some n) r hr
        simp only [curLB] at this ⊢
        omega
      | some a =>
        rw [runsAux, if_pos hv] at hr
        have := ih (n + 1) (some a) r hr
        simp only [curLB] at this ⊢
        omega
    · cases cur with
      | none =>
        rw [runsAux, if_neg hv] at hr
        have := ih (n + 1) none r hr
        simp only [curLB] at this ⊢
        omega
      | some a =>
        rw [runsAux, if_neg hv, List.mem_cons] at hr
        rcases hr with rfl | hr
        · exact Or.inl rfl
        · have := ih (n + 1) none r hr
          simp only [curLB] at this ⊢
          omega

lemma runsAux_pairwise (valid : List String) :
    ∀ (tail : List String) (n : Nat) (cur : Option Nat),
      (runsAux valid tail n cur).Pairwise (fun r r' => r.2 < r'.1) := by
  intro tail
  induction tail with
  | nil =>
    intro n cur
    cases cur with
    | none => exact List.Pairwise.nil
    | some a => exact List.pairwise_singleton _ _
  | cons v rest ih =>
    intro n cur
    by_cases hv : v ∈ valid
    · cases cur with
      | none => rw [runsAux, if_pos hv]; exact ih (n + 1) (some n)
      | some a => rw [runsAux, if_pos hv]; exact ih (n + 1) (some a)
    · cases cur with
      | none => rw [runsAux, if_neg hv]; exact ih (n + 1) none
      | some a =>
        rw [runsAux, if_neg hv]
        refine List.Pairwise.cons ?_ (ih (n + 1) none)
        intro r hr
        have := runsAux_start_lb valid rest (n + 1) none r hr
        simp only [curLB] at this
        omega

/-- The reference emission: for every sentence, one occurrence per
maximal run of valid key values, spanning the run, with offset equal to
the document-wide index of the run's first word (the shift accumulates
the lengths of the preceding sentences). -/
def docRunsAux (key : Sentence → List String) (valid : List String) :
    List Sentence → Nat → List Occurrence
  | [], _ => []
  | s :: rest, shift =>
    (maximalRuns valid (key s)).map (fun r => mkOcc s shift r.1 r.2)
      ++ docRunsAux key valid rest (shift + s.length)

def docRuns (sentences : List Sentence) (key : Sentence → List String)
    (valid : List String) : List Occurrence :=
  docRunsAux key valid sentences 0

lemma select_fold (key : Sentence → List String) (valid : List String) :
    ∀ (sentences : List Sentence) (acc : List Occurrence) (shift : Nat),
      (∀ s ∈ sentences, (key s).length = s.length) →
      (sentences.foldl
        (fun acc s =>
          (acc.1 ++ scanLoop s valid acc.2 (key s).enum [],
           acc.2 + s.length)) (acc, shift)).1
        = acc ++ docRunsAux key valid sentences shift := by
  intro sentences
  induction sentences with
  | nil =>
    intro acc shift _
    simp [docRunsAux]
  | cons s rest ih =>
    intro acc shift hlen
    have hscan : scanLoop s valid shift (key s).enum []
        = (maximalRuns valid (key s)).map (fun r => mkOcc s shift r.1 r.2) := by
      have h := scanLoop_eq_runsAux s valid shift (key s) 0 [] none
        (by simpa using hlen s (by simp)) (fun _ => rfl)
        (by intro a ha; cases ha)
      rw [maximalRuns]
      rw [← h]
      rfl
    rw [List.foldl_cons]
    rw [ih _ _ (fun s' hs' => hlen s' (by simp [hs']))]
    rw [hscan, docRunsAux, List.append_assoc]

/-- C3: with the sentence invariant (the key list — POS tags or
normalized words — is as long as the word list), the longest-sequence
candidate selection emits, over the whole document, exactly the list of
one occurrence per maximal run of valid key values per sentence, each
spanning exactly its run with offset the document-wide token index of the
run's first word; `maximalRuns` contains exactly the maximal runs, each
exactly once (their spans are strictly increasing, so in particular a run
that touches the end of a sentence is also emitted). -/
theorem select_longest_sequences_spec (sentences : List Sentence)
    (key : Sentence → List String) (valid : List String)
    (hlen : ∀ s ∈ sentences, (key s).length = s.length) :
    select_candidates_with_longest_sequences sentences key valid
      = docRuns sentences key valid ∧
    (∀ vals x y, (x, y) ∈ maximalRuns valid vals ↔ IsMaxRun valid vals x y) ∧
    (∀ vals, (maximalRuns valid vals).Pairwise (fun r r' => r.2 < r'.1)) := by
  refine ⟨?_, fun vals x y => maximalRuns_mem_iff valid vals x y,
    fun vals => runsAux_pairwise valid vals 0 none⟩
  rw [select_candidates_with_longest_sequences, docRuns]
  simpa using select_fold key valid sentences [] 0 hlen

theorem select_longest_sequences_spec_witness :
    (∀ s ∈ [Sentence.mk ["a", "b"] ["N", "V"] ["a", "b"]],
      s.pos_tags.length = s.length) ∧
    (select_candidates_with_longest_sequences
        [Sentence.mk ["a", "b"] ["N", "V"] ["a", "b"]]
        (fun s => s.pos_tags) ["N"]
      = docRuns [Sentence.mk ["a", "b"] ["N", "V"] ["a", "b"]]
          (fun s => s.pos_tags) ["N"] ∧
     (∀ vals x y, (x, y) ∈ maximalRuns ["N"] vals ↔ IsMaxRun ["N"] vals x y) ∧
     (∀ vals, (maximalRuns ["N"] vals).Pairwise (fun r r' => r.2 < r'.1))) :=
  ⟨by intro s hs; simp at hs; subst hs; rfl,
   select_longest_sequences_spec _ _ _
     (by intro s hs; simp at hs; subst hs; rfl)⟩

/-! ### Claim C4: `MultipartiteRank.weight_adjustment`
(`multipartite_rank.py`, lines 159-201)

The directed candidate graph is modelled by its node list (in adjacency
order), an edge predicate and a weight function; `math.exp` is abstracted
by a function parameter `expQ` on the rational weights. -/

/-- A `weighted_edges` dict entry: `(start, end)` key and boosters sum. -/
abbrev AdjEntry := (String × String) × ℚ

/-- `self.candidates[c].offsets[0]`: the first-occurrence offset. -/
def firstOffset (cs : Candidates) (c : String) : Nat :=
  ((lookupC cs c).offsets).headD 0

/-- `topic[offsets.index(min(offsets))]` (lines 180-183): the first topic
member whose first-occurrence offset is minimal. -/
def repOf (cs : Candidates) (topic : List String) : String :=
  match (topic.map (firstOffset cs)).min? with
  | some m => topic.getD ((topic.map (firstOffset cs)).indexOf m) ""
  | none => ""

/-- The `boosters` list (lines 188-191): weights of edges from the other
topic members into `e`. -/
def boostersOf (edge : String → String → Bool) (w : String → String → ℚ)
    (topic : List String) (first e : String) : List ℚ :=
  (topic.filter (fun c => decide (c ≠ first) && edge c e)).map (fun c => w c e)

/-- `graph.edges(first)` targets: the out-neighbors of `first` in node
order. -/
def outNeighbors (nodes : List String) (edge : String → String → Bool)
    (first : String) : List String :=
  nodes.filter (edge first)

/-- Python dict assignment `d[k] = v` on an association list: replaces
the value of an existing key, else appends. -/
def dictSet (l : List AdjEntry) (k : String × String) (v : ℚ) :
    List AdjEntry :=
  if l.any (fun e => e.1 = k) then
    l.map (fun e => if e.1 = k then (k, v) else e)
  else l ++ [(k, v)]

/-- The `weighted_edges` dict built by the first phase of
`weight_adjustment` (lines 170-194). -/
def weightedEdges (nodes : List String) (edge : String → String → Bool)
    (w : String → String → ℚ) (cs : Candidates)
    (topics : List (List String)) : List AdjEntry :=
  topics.foldl
    (fun acc topic =>
      if topic.length = 1 then acc
      else
        (outNeighbors nodes edge (repOf cs topic)).foldl
          (fun acc2 e =>
            if (boostersOf edge w topic (repOf cs topic) e) ≠ [] then
              dictSet acc2 (repOf cs topic, e)
                (boostersOf edge w topic (repOf cs topic) e).sum
            else acc2)
          acc)
    []

/-- The second phase (lines 196-201): for each recorded `(node_i,
node_j)` key with boosters sum `b`, the weight of the reverse edge
`node_j → node_i` is increased by
`b * alpha * exp(1 / (1 + candidates[node_i].offsets[0]))`. -/
def weight_adjustment (nodes : List String)
    (edge : String → String → Bool) (w : String → String → ℚ)
    (cs : Candidates) (topics : List (List String)) (alpha : ℚ)
    (expQ : ℚ → ℚ) : String → String → ℚ :=
  (weightedEdges nodes edge w cs topics).foldl
    (fun W entry => fun u v =>
      if u = entry.1.2 ∧ v = entry.1.1 then
        W u v + entry.2 * alpha
          * expQ (1 / (1 + (firstOffset cs entry.1.1 : ℚ)))
      else W u v)
    w

/-- The reference description of the dict: per topic (singletons
skipped), one entry per out-neighbor of the representative with a
nonempty boosters list, keyed `(representative, end)` and valued by the
boosters sum. -/
def flatEdges (nodes : List String) (edge : String → String → Bool)
    (w : String → String → ℚ) (cs : Candidates)
    (topics : List (List String)) : List AdjEntry :=
  topics.flatMap (fun topic =>
    if topic.length = 1 then []
    else (outNeighbors nodes edge (repOf cs topic)).filterMap (fun e =>
      if (boostersOf edge w topic (repOf cs topic) e) ≠ [] then
        some ((repOf cs topic, e),
          (boostersOf edge w topic (repOf cs topic) e).sum)
      else none))

lemma adjust_foldl (cs : Candidates) (alpha : ℚ) (expQ : ℚ → ℚ) :
    ∀ (L : List AdjEntry) (w : String → String → ℚ) (u v : String),
      (L.foldl
        (fun W entry => fun a b =>
          if a = entry.1.2 ∧ b = entry.1.1 then
            W a b + entry.2 * alpha
              * expQ (1 / (1 + (firstOffset cs entry.1.1 : ℚ)))
          else W a b)
        w) u v
      = w u v
        + ((L.filter (fun entry => entry.1 = (v, u))).map (fun e => e.2)).sum
          * alpha * expQ (1 / (1 + (firstOffset cs v : ℚ))) := by
  intro L
  induction L with
  | nil => intro w u v; simp
  | cons entry rest ih =>
    intro w u v
    rw [List.foldl_cons, ih, List.filter_cons]
    by_cases h : entry.1 = (v, u)
    · have hcond : u = entry.1.2 ∧ v = entry.1.1 := by
        rw [h]; exact ⟨rfl, rfl⟩
      have hv : entry.1.1 = v := by rw [h]
      simp only [if_pos hcond, decide_eq_true h, eq_self_iff_true, if_true,
        List.map_cons, List.sum_cons]
      rw [hv]
      ring
    · have hcond : ¬(u = entry.1.2 ∧ v = entry.1.1) := by
        rintro ⟨rfl, rfl⟩
        exact h rfl
      simp only [decide_eq_false h, Bool.false_eq_true, if_false,
        if_neg hcond]

lemma foldl_min_spec :
    ∀ (xs : List Nat) (a : Nat),
      xs.foldl min a ∈ a :: xs ∧ xs.foldl min a ≤ a ∧
        ∀ x ∈ xs, xs.foldl min a ≤ x := by
  intro xs
  induction xs with
  | nil => intro a; simp
  | cons x rest ih =>
    intro a
    rw [List.foldl_cons]
    obtain ⟨hmem, hle, hall⟩ := ih (min a x)
    refine ⟨?_, ?_, ?_⟩
    · rcases List.mem_cons.mp hmem with h | h
      · rw [h]
        rcases Nat.le_total a x with hax | hax
        · rw [Nat.min_eq_left hax]
          simp
        · rw [Nat.min_eq_right hax]
          simp
      · simp [h]
    · exact le_trans hle (Nat.min_le_left _ _)
    · intro y hy
      rcases List.mem_cons.mp hy with rfl | hy'
      · exact le_trans hle (Nat.min_le_right _ _)
      · exact hall y hy'

lemma min?_spec (l : List Nat) (m : Nat) (h : l.min? = some m) :
    m ∈ l ∧ ∀ x ∈ l, m ≤ x := by
  cases l with
  | nil => cases h
  | cons a rest =>
    rw [List.min?_cons'] at h
    injection h with h
    obtain ⟨hmem, hle, hall⟩ := foldl_min_spec rest a
    subst h
    refine ⟨hmem, ?_⟩
    intro x hx
    rcases List.mem_cons.mp hx with rfl | hx'
    · exact hle
    · exact hall x hx'

/-- For a nonempty topic, the chosen representative is a member and
attains the minimal first-occurrence offset. -/
lemma repOf_min (cs : Candidates) (topic : List String)
    (hne : topic ≠ []) :
    repOf cs topic ∈ topic ∧
      ∀ c ∈ topic, firstOffset cs (repOf cs topic) ≤ firstOffset cs c := by
  cases hmin : (topic.map (firstOffset cs)).min? with
  | none =>
    rw [List.min?_eq_none_iff] at hmin
    rw [List.map_eq_nil_iff] at hmin
    exact absurd hmin hne
  | some m =>
    obtain ⟨hmem, hall⟩ := min?_spec _ m hmin
    have hidx : (topic.map (firstOffset cs)).indexOf m
        < (topic.map (firstOffset cs)).length :=
      List.indexOf_lt_length.mpr hmem
    have hidx' : (topic.map (firstOffset cs)).indexOf m < topic.length := by
      rwa [List.length_map] at hidx
    have hrep : repOf cs topic = topic.get ⟨_, hidx'⟩ := by
      unfold repOf
      rw [hmin]
      show topic.getD ((topic.map (firstOffset cs)).indexOf m) "" = _
      rw [List.getD_eq_getElem _ _ hidx']
      rfl
    constructor
    · rw [hrep]
      exact List.get_mem _ _ _
    · intro c hc
      have hval : firstOffset cs (topic.get ⟨_, hidx'⟩) = m := by
        have h1 : (topic.map (firstOffset cs)).get
            ⟨(topic.map (firstOffset cs)).indexOf m, hidx⟩ = m :=
          List.indexOf_get hidx
        rw [List.get_map] at h1
        exact h1
      rw [hrep, hval]
      exact hall _ (List.mem_map_of_mem _ hc)

lemma dictSet_fresh (l : List AdjEntry) (k : String × String) (v : ℚ)
    (h : ∀ p ∈ l, p.1 ≠ k) : dictSet l k v = l ++ [(k, v)] := by
  rw [dictSet, if_neg]
  intro hc
  rw [List.any_eq_true] at hc
  obtain ⟨p, hp, hpk⟩ := hc
  exact h p hp (by simpa using hpk)

lemma boostersOf_ne_nil_topic {edge : String → String → Bool}
    {w : String → String → ℚ} {topic : List String} {first e : String}
    (h : boostersOf edge w topic first e ≠ []) : topic ≠ [] := by
  intro ht
  subst ht
  simp [boostersOf] at h

lemma inner_fold_append (edge : String → String → Bool)
    (w : String → String → ℚ) (topic : List String) (first : String) :
    ∀ (ends : List String) (acc : List AdjEntry),
      ends.Nodup →
      (∀ e ∈ ends, boostersOf edge w topic first e ≠ [] →
        ∀ p ∈ acc, p.1 ≠ (first, e)) →
      ends.foldl
        (fun acc2 e =>
          if (boostersOf edge w topic first e) ≠ [] then
            dictSet acc2 (first, e) (boostersOf edge w topic first e).sum
          else acc2) acc
      = acc ++ ends.filterMap (fun e =>
          if (boostersOf edge w topic first e) ≠ [] then
            some ((first, e), (boostersOf edge w topic first e).sum)
          else none) := by
  intro ends
  induction ends with
  | nil =>
    intro acc _ _
    simp
  | cons e rest ih =>
    intro acc hnd hfresh
    obtain ⟨he, hndr⟩ := List.nodup_cons.mp hnd
    rw [List.foldl_cons]
    by_cases hbs : boostersOf edge w topic first e ≠ []
    · rw [if_pos hbs,
        dictSet_fresh _ _ _ (fun p hp => hfresh e (by simp) hbs p hp),
        List.filterMap_cons_some (by rw [if_pos hbs])]
      have hfresh' : ∀ e' ∈ rest, boostersOf edge w topic first e' ≠ [] →
          ∀ p ∈ acc ++ [((first, e), (boostersOf edge w topic first e).sum)],
            p.1 ≠ (first, e') := by
        intro e' he' hbs' p hp
        rcases List.mem_append.mp hp with h | h
        · exact hfresh e' (by simp [he']) hbs' p h
        · rw [List.mem_singleton] at h
          subst h
          simp only [ne_eq, Prod.mk.injEq, not_and]
          intro _ hee
          exact he (hee ▸ he')
      rw [ih _ hndr hfresh', List.append_assoc, List.singleton_append]
    · rw [if_neg hbs,
        List.filterMap_cons_none (by rw [if_neg hbs])]
      exact ih acc hndr (fun e' he' => hfresh e' (by simp [he']))

lemma weightedEdges_flat (nodes : List String)
    (edge : String → String → Bool) (w : String → String → ℚ)
    (cs : Candidates) (hnodes : nodes.Nodup) :
    ∀ (topics : List (List String)) (acc : List AdjEntry),
      topics.Pairwise (fun T T' => ∀ c ∈ T, c ∉ T') →
      (∀ p ∈ acc, ∀ T ∈ topics, p.1.1 ∉ T) →
      topics.foldl
        (fun acc topic =>
          if topic.length = 1 then acc
          else
            (outNeighbors nodes edge (repOf cs topic)).foldl
              (fun acc2 e =>
                if (boostersOf edge w topic (repOf cs topic) e) ≠ [] then
                  dictSet acc2 (repOf cs topic, e)
                    (boostersOf edge w topic (repOf cs topic) e).sum
                else acc2)
              acc)
        acc
      = acc ++ flatEdges nodes edge w cs topics := by
  intro topics
  induction topics with
  | nil =>
    intro acc _ _
    simp [flatEdges]
  | cons T rest ih =>
    intro acc hdisj hfresh
    obtain ⟨hd, hdisjr⟩ := List.pairwise_cons.mp hdisj
    rw [List.foldl_cons]
    have hflat : flatEdges nodes edge w cs (T :: rest)
        = (if T.length = 1 then [] else
            (outNeighbors nodes edge (repOf cs T)).filterMap (fun e =>
              if (boostersOf edge w T (repOf cs T) e) ≠ [] then
                some ((repOf cs T, e),
                  (boostersOf edge w T (repOf cs T) e).sum)
              else none)) ++ flatEdges nodes edge w cs rest := by
      rw [flatEdges, List.flatMap_cons]
      rfl
    by_cases hT : T.length = 1
    · rw [if_pos hT, hflat, if_pos hT, List.nil_append]
      exact ih acc hdisjr (fun p hp T' hT' => hfresh p hp T' (by simp [hT']))
    · rw [if_neg hT, hflat, if_neg hT]
      have hinner := inner_fold_append edge w T (repOf cs T)
        (outNeighbors nodes edge (repOf cs T)) acc
        (hnodes.filter _)
        (by
          intro e he hbs p hp
          have hT0 : T ≠ [] := boostersOf_ne_nil_topic hbs
          have hrepT : repOf cs T ∈ T := (repOf_min cs T hT0).1
          have := hfresh p hp T (by simp)
          intro hpk
          rw [hpk] at this
          exact this hrepT)
      rw [hinner]
      have hfresh' : ∀ p ∈ acc ++ (outNeighbors nodes edge
          (repOf cs T)).filterMap (fun e =>
            if (boostersOf edge w T (repOf cs T) e) ≠ [] then
              some ((repOf cs T, e),
                (boostersOf edge w T (repOf cs T) e).sum)
            else none),
          ∀ T' ∈ rest, p.1.1 ∉ T' := by
        intro p hp T' hT'
        rcases List.mem_append.mp hp with h | h
        · exact hfresh p h T' (by simp [hT'])
        · rw [List.mem_filterMap] at h
          obtain ⟨e, he, hsome⟩ := h
          by_cases hbs : boostersOf edge w T (repOf cs T) e ≠ []
          · rw [if_pos hbs] at hsome
            injection hsome with hsome
            subst hsome
            have hT0 : T ≠ [] := boostersOf_ne_nil_topic hbs
            have hrepT : repOf cs T ∈ T := (repOf_min cs T hT0).1
            exact hd T' hT' _ hrepT
          · rw [if_neg hbs] at hsome
            cases hsome
      rw [ih _ hdisjr hfresh', List.append_assoc]

lemma mem_flatEdges {nodes : List String} {edge : String → String → Bool}
    {w : String → String → ℚ} {cs : Candidates}
    {topics : List (List String)} {p : AdjEntry} :
    p ∈ flatEdges nodes edge w cs topics ↔
      ∃ T ∈ topics, T.length ≠ 1 ∧ ∃ e ∈ nodes,
        edge (repOf cs T) e = true ∧
        boostersOf edge w T (repOf cs T) e ≠ [] ∧
        p = ((repOf cs T, e), (boostersOf edge w T (repOf cs T) e).sum) := by
  rw [flatEdges, List.mem_flatMap]
  constructor
  · rintro ⟨T, hT, hp⟩
    by_cases hT1 : T.length = 1
    · rw [if_pos hT1] at hp
      cases hp
    · rw [if_neg hT1, List.mem_filterMap] at hp
      obtain ⟨e, he, hsome⟩ := hp
      rw [outNeighbors, List.mem_filter] at he
      by_cases hbs : boostersOf edge w T (repOf cs T) e ≠ []
      · rw [if_pos hbs] at hsome
        injection hsome with hsome
        exact ⟨T, hT, hT1, e, he.1, he.2, hbs, hsome.symm⟩
      · rw [if_neg hbs] at hsome
        cases hsome
  · rintro ⟨T, hT, hT1, e, hen, hedge, hbs, rfl⟩
    refine ⟨T, hT, ?_⟩
    rw [if_neg hT1, List.mem_filterMap]
    refine ⟨e, ?_, by rw [if_pos hbs]⟩
    rw [outNeighbors, List.mem_filter]
    exact ⟨hen, hedge⟩

lemma filter_key_nil (l : List AdjEntry) (k : String × String)
    (h : ∀ p ∈ l, p.1 ≠ k) :
    l.filter (fun p => decide (p.1 = k)) = [] := by
  rw [List.filter_eq_nil_iff]
  intro p hp
  simpa using h p hp

lemma filter_block_singleton (edge : String → String → Bool)
    (w : String → String → ℚ) (cs : Candidates) (T : List String)
    (e : String) :
    ∀ (ends : List String), ends.Nodup → e ∈ ends →
      boostersOf edge w T (repOf cs T) e ≠ [] →
      (ends.filterMap (fun x =>
          if (boostersOf edge w T (repOf cs T) x) ≠ [] then
            some ((repOf cs T, x), (boostersOf edge w T (repOf cs T) x).sum)
          else none)).filter (fun p => decide (p.1 = (repOf cs T, e)))
        = [((repOf cs T, e), (boostersOf edge w T (repOf cs T) e).sum)] := by
  intro ends
  induction ends with
  | nil =>
    intro _ h
    cases h
  | cons x rest ih =>
    intro hnd hmem hbs
    obtain ⟨hne, hndr⟩ := List.nodup_cons.mp hnd
    rcases List.mem_cons.mp hmem with rfl | hmem'
    · rw [List.filterMap_cons_some (by rw [if_pos hbs]),
        List.filter_cons_of_pos (by simp)]
      congr 1
      apply filter_key_nil
      intro p hp
      rw [List.mem_filterMap] at hp
      obtain ⟨e', he', hsome⟩ := hp
      by_cases hbs' : boostersOf edge w T (repOf cs T) e' ≠ []
      · rw [if_pos hbs'] at hsome
        injection hsome with hsome
        subst hsome
        simp only [ne_eq, Prod.mk.injEq, not_and]
        intro _ hee
        exact hne (hee ▸ he')
      · rw [if_neg hbs'] at hsome
        cases hsome
    · have hxe : x ≠ e := fun h => hne (h ▸ hmem')
      by_cases hbs' : boostersOf edge w T (repOf cs T) x ≠ []
      · rw [List.filterMap_cons_some (by rw [if_pos hbs']),
          List.filter_cons_of_neg (by simp [hxe])]
        exact ih hndr hmem' hbs
      · rw [List.filterMap_cons_none (by rw [if_neg hbs'])]
        exact ih hndr hmem' hbs

/-- C4: in `weight_adjustment`, with distinct graph nodes and pairwise
disjoint topics: (a) the chosen representative of a nonempty topic is the
member of earliest first-occurrence offset; (b) for every topic with more
than one member and every directed edge from its representative to a node
`e`, the sum of the weights of the edges from every other member of that
topic to `e`, multiplied by `alpha` and by `exp(1 / (1 + representative's
first offset))`, is added onto the weight of the reverse edge from `e`
into the representative (when no other member has an edge to `e` the sum
is 0 and the weight is unchanged); (c) every edge that is not such a
reverse edge into a representative keeps its weight. -/
theorem weight_adjustment_spec (nodes : List String)
    (edge : String → String → Bool) (w : String → String → ℚ)
    (cs : Candidates) (topics : List (List String)) (alpha : ℚ)
    (expQ : ℚ → ℚ) (hnodes : nodes.Nodup)
    (hdisj : topics.Pairwise (fun T T' => ∀ c ∈ T, c ∉ T')) :
    (∀ T ∈ topics, T ≠ [] → repOf cs T ∈ T ∧
        ∀ c ∈ T, firstOffset cs (repOf cs T) ≤ firstOffset cs c) ∧
    (∀ T ∈ topics, 1 < T.length → ∀ e ∈ nodes,
        edge (repOf cs T) e = true →
        weight_adjustment nodes edge w cs topics alpha expQ e (repOf cs T)
          = w e (repOf cs T)
            + (boostersOf edge w T (repOf cs T) e).sum * alpha
              * expQ (1 / (1 + (firstOffset cs (repOf cs T) : ℚ)))) ∧
    (∀ u v, (¬ ∃ T ∈ topics, 1 < T.length ∧ v = repOf cs T ∧ u ∈ nodes ∧
          edge v u = true ∧ boostersOf edge w T v u ≠ []) →
        weight_adjustment nodes edge w cs topics alpha expQ u v = w u v) := by
  have hflat : weightedEdges nodes edge w cs topics
      = flatEdges nodes edge w cs topics := by
    have h := weightedEdges_flat nodes edge w cs hnodes topics []
      hdisj (by simp)
    rw [weightedEdges, h, List.nil_append]
  refine ⟨fun T _ hne => repOf_min cs T hne, ?_, ?_⟩
  · intro T hT hlen e hen hedge
    rw [weight_adjustment, adjust_foldl, hflat]
    obtain ⟨ts1, ts2, rfl⟩ := List.append_of_mem hT
    obtain ⟨hpw1, hpw2, hacross⟩ := List.pairwise_append.mp hdisj
    obtain ⟨hdT, hpw3⟩ := List.pairwise_cons.mp hpw2
    have hTne : T ≠ [] := by
      intro h
      rw [h] at hlen
      simp at hlen
    have hrepT : repOf cs T ∈ T := (repOf_min cs T hTne).1
    have hsplit : flatEdges nodes edge w cs (ts1 ++ T :: ts2)
        = flatEdges nodes edge w cs ts1
          ++ ((if T.length = 1 then [] else
              (outNeighbors nodes edge (repOf cs T)).filterMap (fun x =>
                if (boostersOf edge w T (repOf cs T) x) ≠ [] then
                  some ((repOf cs T, x),
                    (boostersOf edge w T (repOf cs T) x).sum)
                else none))
            ++ flatEdges nodes edge w cs ts2) := by
      rw [flatEdges, List.flatMap_append, List.flatMap_cons]
      rfl
    have hnil1 : (flatEdges nodes edge w cs ts1).filter
        (fun p => decide (p.1 = (repOf cs T, e))) = [] := by
      apply filter_key_nil
      intro p hp
      rw [mem_flatEdges] at hp
      obtain ⟨T', hT', _, e', _, _, hbs', rfl⟩ := hp
      have hrep' : repOf cs T' ∈ T' :=
        (repOf_min cs T' (boostersOf_ne_nil_topic hbs')).1
      simp only [ne_eq, Prod.mk.injEq, not_and]
      intro hr _
      exact (hacross T' hT' T (by simp)) _ hrep' (hr ▸ hrepT)
    have hnil2 : (flatEdges nodes edge w cs ts2).filter
        (fun p => decide (p.1 = (repOf cs T, e))) = [] := by
      apply filter_key_nil
      intro p hp
      rw [mem_flatEdges] at hp
      obtain ⟨T', hT', _, e', _, _, hbs', rfl⟩ := hp
      have hrep' : repOf cs T' ∈ T' :=
        (repOf_min cs T' (boostersOf_ne_nil_topic hbs')).1
      simp only [ne_eq, Prod.mk.injEq, not_and]
      intro hr _
      exact (hdT T' hT') _ hrepT (hr.symm ▸ hrep')
    rw [hsplit, List.filter_append, List.filter_append, hnil1, hnil2,
      if_neg (by omega), List.nil_append, List.append_nil]
    by_cases hbs : boostersOf edge w T (repOf cs T) e ≠ []
    · rw [filter_block_singleton edge w cs T e
        (outNeighbors nodes edge (repOf cs T)) (hnodes.filter _)
        (by rw [outNeighbors, List.mem_filter]; exact ⟨hen, hedge⟩) hbs]
      simp
    · have hblock : ((outNeighbors nodes edge (repOf cs T)).filterMap
          (fun x => if (boostersOf edge w T (repOf cs T) x) ≠ [] then
              some ((repOf cs T, x),
                (boostersOf edge w T (repOf cs T) x).sum)
            else none)).filter
          (fun p => decide (p.1 = (repOf cs T, e))) = [] := by
        apply filter_key_nil
        intro p hp
        rw [List.mem_filterMap] at hp
        obtain ⟨e', he', hsome⟩ := hp
        by_cases hbs' : boostersOf edge w T (repOf cs T) e' ≠ []
        · rw [if_pos hbs'] at hsome
          injection hsome with hsome
          subst hsome
          simp only [ne_eq, Prod.mk.injEq, not_and]
          intro _ hee
          exact hbs (hee ▸ hbs')
        · rw [if_neg hbs'] at hsome
          cases hsome
      rw [hblock]
      rw [not_ne_iff] at hbs
      rw [hbs]
      simp
  · intro u v hno
    rw [weight_adjustment, adjust_foldl, hflat]
    have hnil : (flatEdges nodes edge w cs topics).filter
        (fun p => decide (p.1 = (v, u))) = [] := by
      apply filter_key_nil
      intro p hp
      rw [mem_flatEdges] at hp
      obtain ⟨T, hT, hT1, e, hen, hedge, hbs, rfl⟩ := hp
      simp only [ne_eq, Prod.mk.injEq, not_and]
      intro hr he
      apply hno
      have hTne : T ≠ [] := boostersOf_ne_nil_topic hbs
      have hlen : 1 < T.length := by
        have := List.length_pos.mpr hTne
        omega
      subst hr
      subst he
      exact ⟨T, hT, hlen, rfl, hen, hedge, hbs⟩
    rw [hnil]
    simp

theorem weight_adjustment_spec_witness :
    (["x", "y"].Nodup ∧
      ([["x"], ["y"]] : List (List String)).Pairwise
        (fun T T' => ∀ c ∈ T, c ∉ T')) ∧
    ((∀ T ∈ [["x"], ["y"]], T ≠ [] → repOf [] T ∈ T ∧
        ∀ c ∈ T, firstOffset [] (repOf [] T) ≤ firstOffset [] c) ∧
     (∀ T ∈ [["x"], ["y"]], 1 < T.length → ∀ e ∈ ["x", "y"],
        (fun _ _ => true) (repOf [] T) e = true →
        weight_adjustment ["x", "y"] (fun _ _ => true) (fun _ _ => 1) []
            [["x"], ["y"]] 1 id e (repOf [] T)
          = (fun _ _ => (1 : ℚ)) e (repOf [] T)
            + (boostersOf (fun _ _ => true) (fun _ _ => 1) T
                (repOf [] T) e).sum * 1
              * id (1 / (1 + (firstOffset [] (repOf [] T) : ℚ)))) ∧
     (∀ u v, (¬ ∃ T ∈ [["x"], ["y"]], 1 < T.length ∧ v = repOf [] T ∧
          u ∈ ["x", "y"] ∧ (fun _ _ => true) v u = true ∧
          boostersOf (fun _ _ => true) (fun _ _ => 1) T v u ≠ []) →
        weight_adjustment ["x", "y"] (fun _ _ => true) (fun _ _ => 1) []
            [["x"], ["y"]] 1 id u v = (fun _ _ => (1 : ℚ)) u v)) :=
  ⟨⟨by decide, by decide⟩,
   weight_adjustment_spec ["x", "y"] (fun _ _ => true) (fun _ _ => 1) []
     [["x"], ["y"]] 1 id (by decide) (by decide)⟩

end Perke
